import Mathlib

/-!
Verification development for the gossamer core subsystems:
the GRANDPA pending-change tree, the block-tree leaf set and the
transactional trie state.  Block hashes and storage keys/values are
embedded as natural numbers (the source only needs equality and a total
order on them); unsigned block heights are embedded as naturals.

The ordered map `btree.Map` used by the source (from tidwall/btree) is
embedded as a key-sorted association list with the contract of the
library: `Get`, `Set`, `Delete`, and `Ascend pivot` which visits the
entries whose key is at least `pivot` in ascending order.
-/

namespace Gossamer

/-- An ordered map from naturals, embedded as an association list. -/
abbrev OrdMap (α : Type) : Type := List (Nat × α)

namespace OrdMap

/-- Lookup: first entry with the given key (the only one on well-formed maps). -/
def get {α : Type} (m : OrdMap α) (k : Nat) : Option α :=
  match m.find? (fun e => e.1 == k) with
  | some e => some e.2
  | none => none

/-- Insert or replace, keeping the list sorted by key (btree.Map.Set). -/
def set {α : Type} (m : OrdMap α) (k : Nat) (v : α) : OrdMap α :=
  match m with
  | [] => [(k, v)]
  | e :: rest =>
    if k < e.1 then (k, v) :: e :: rest
    else if k = e.1 then (k, v) :: rest
    else e :: set rest k v

/-- Remove the entry with the given key, if present (btree.Map.Delete). -/
def del {α : Type} (m : OrdMap α) (k : Nat) : OrdMap α :=
  match m with
  | [] => []
  | e :: rest => if e.1 = k then rest else e :: del rest k

/-- The keys of the map in storage order. -/
def keys {α : Type} (m : OrdMap α) : List Nat := m.map Prod.fst

/-- Well-formedness: keys strictly increasing (hence unique), as in a btree map. -/
def WF {α : Type} (m : OrdMap α) : Prop := (keys m).Sorted (· < ·)

instance {α : Type} (m : OrdMap α) : Decidable (WF m) := by
  unfold WF List.Sorted; infer_instance

/-- First entry whose key is at least `pivot`: on a sorted map this is the
entry that `btree.Map.Ascend pivot` visits first. -/
def firstGE {α : Type} (m : OrdMap α) (pivot : Nat) : Option (Nat × α) :=
  m.find? (fun e => pivot ≤ e.1)

theorem WF_nil {α : Type} : WF ([] : OrdMap α) := List.sorted_nil

theorem WF_cons_of_WF {α : Type} {e : Nat × α} {m : OrdMap α} (h : WF (e :: m)) : WF m := by
  simpa [WF, keys, List.Sorted] using (List.sorted_cons.mp h).2

theorem WF_cons_lt {α : Type} {e : Nat × α} {m : OrdMap α} (h : WF (e :: m)) :
    ∀ e' ∈ m, e.1 < e'.1 := by
  intro e' he'
  exact (List.sorted_cons.mp h).1 e'.1 (List.mem_map_of_mem Prod.fst he')

theorem get_nil {α : Type} (k : Nat) : get ([] : OrdMap α) k = none := rfl

theorem get_cons {α : Type} (e : Nat × α) (m : OrdMap α) (k : Nat) :
    get (e :: m) k = if e.1 = k then some e.2 else get m k := by
  by_cases h : e.1 = k
  · unfold get
    rw [List.find?_cons_of_pos _ (by simp [h])]
    simp [h]
  · unfold get
    rw [List.find?_cons_of_neg _ (by simp [h])]
    simp [h]

theorem mem_set {α : Type} {m : OrdMap α} {k : Nat} {v : α} {e : Nat × α}
    (h : e ∈ set m k v) : e = (k, v) ∨ e ∈ m := by
  induction m with
  | nil => simpa [set] using h
  | cons f rest ih =>
    simp only [set] at h
    by_cases h1 : k < f.1
    · rw [if_pos h1] at h
      rcases List.mem_cons.mp h with rfl | h
      · exact Or.inl rfl
      · exact Or.inr h
    · by_cases h2 : k = f.1
      · rw [if_neg h1, if_pos h2] at h
        rcases List.mem_cons.mp h with rfl | h
        · exact Or.inl rfl
        · exact Or.inr (List.mem_cons_of_mem f h)
      · rw [if_neg h1, if_neg h2] at h
        rcases List.mem_cons.mp h with rfl | h
        · exact Or.inr (List.mem_cons_self e rest)
        · rcases ih h with h' | h'
          · exact Or.inl h'
          · exact Or.inr (List.mem_cons_of_mem f h')

theorem mem_del {α : Type} {m : OrdMap α} {k : Nat} {e : Nat × α}
    (h : e ∈ del m k) : e ∈ m := by
  induction m with
  | nil => simp [del] at h
  | cons f rest ih =>
    simp only [del] at h
    by_cases h1 : f.1 = k
    · simp only [if_pos h1] at h
      exact List.mem_cons_of_mem f h
    · simp only [if_neg h1, List.mem_cons] at h
      rcases h with rfl | h
      · exact List.mem_cons_self e rest
      · exact List.mem_cons_of_mem f (ih h)

theorem get_eq_some_mem {α : Type} {m : OrdMap α} {k : Nat} {v : α}
    (h : get m k = some v) : (k, v) ∈ m := by
  induction m with
  | nil => simp [get] at h
  | cons e rest ih =>
    rw [get_cons] at h
    by_cases h1 : e.1 = k
    · rw [if_pos h1] at h
      have : e = (k, v) := by
        cases e
        simp only at h1
        simp only [Option.some.injEq] at h
        simp [h1, h]
      exact this ▸ List.mem_cons_self e rest
    · rw [if_neg h1] at h
      exact List.mem_cons_of_mem e (ih h)

theorem get_set_self {α : Type} (m : OrdMap α) (k : Nat) (v : α) :
    get (set m k v) k = some v := by
  induction m with
  | nil => simp [get, set]
  | cons e rest ih =>
    by_cases h1 : k < e.1
    · simp [set, h1, get_cons]
    · by_cases h2 : k = e.1
      · simp [set, h1, h2, get_cons]
      · simp only [set, if_neg h1, if_neg h2]
        rw [get_cons, if_neg (by omega), ih]

theorem get_set_ne {α : Type} (m : OrdMap α) (k k' : Nat) (v : α) (h : k' ≠ k) :
    get (set m k v) k' = get m k' := by
  induction m with
  | nil => simp [get, set, Ne.symm h, get_cons]
  | cons e rest ih =>
    by_cases h1 : k < e.1
    · rw [set, if_pos h1, get_cons, if_neg (by omega), get_cons]
    · by_cases h2 : k = e.1
      · subst h2
        rw [set, if_neg h1, if_pos rfl, get_cons, if_neg (by omega), get_cons,
          if_neg (by omega)]
      · rw [set, if_neg h1, if_neg h2, get_cons, get_cons, ih]

theorem get_del_self {α : Type} {m : OrdMap α} (hw : WF m) (k : Nat) :
    get (del m k) k = none := by
  induction m with
  | nil => simp [get, del]
  | cons e rest ih =>
    by_cases h1 : e.1 = k
    · have hlt := WF_cons_lt hw
      rw [del, if_pos h1]
      cases hg : get rest k with
      | none => rfl
      | some v =>
        exfalso
        have := hlt (k, v) (get_eq_some_mem hg)
        simp only at this
        omega
    · rw [del, if_neg h1, get_cons, if_neg h1, ih (WF_cons_of_WF hw)]

theorem get_del_ne {α : Type} (m : OrdMap α) (k k' : Nat) (h : k' ≠ k) :
    get (del m k) k' = get m k' := by
  induction m with
  | nil => simp [del]
  | cons e rest ih =>
    by_cases h1 : e.1 = k
    · rw [del, if_pos h1, get_cons, if_neg (by omega)]
    · rw [del, if_neg h1, get_cons, get_cons, ih]

theorem WF_set {α : Type} {m : OrdMap α} (hw : WF m) (k : Nat) (v : α) :
    WF (set m k v) := by
  induction m with
  | nil => simp [set, WF, keys]
  | cons e rest ih =>
    have hlt := WF_cons_lt hw
    by_cases h1 : k < e.1
    · simp only [set, if_pos h1]
      refine List.sorted_cons.mpr ⟨?_, hw⟩
      intro b hb
      rcases List.mem_map.mp hb with ⟨e', he', rfl⟩
      rcases List.mem_cons.mp he' with rfl | hmem
      · omega
      · have := hlt e' hmem
        omega
    · by_cases h2 : k = e.1
      · subst h2
        simp only [set, if_neg h1, if_pos rfl]
        refine List.sorted_cons.mpr ⟨?_, WF_cons_of_WF hw⟩
        intro b hb
        rcases List.mem_map.mp hb with ⟨e', he', rfl⟩
        exact hlt e' he'
      · simp only [set, if_neg h1, if_neg h2]
        refine List.sorted_cons.mpr ⟨?_, ih (WF_cons_of_WF hw)⟩
        intro b hb
        rcases List.mem_map.mp hb with ⟨e', he', rfl⟩
        rcases mem_set he' with rfl | hmem
        · omega
        · exact hlt e' hmem

theorem WF_del {α : Type} {m : OrdMap α} (hw : WF m) (k : Nat) : WF (del m k) := by
  induction m with
  | nil => simpa [del] using hw
  | cons e rest ih =>
    have hlt := WF_cons_lt hw
    by_cases h1 : e.1 = k
    · simpa [del, h1] using WF_cons_of_WF hw
    · simp only [del, if_neg h1]
      refine List.sorted_cons.mpr ⟨?_, ih (WF_cons_of_WF hw)⟩
      intro b hb
      rcases List.mem_map.mp hb with ⟨e', he', rfl⟩
      exact hlt e' (mem_del he')

theorem set_eq_cons_of_lt {α : Type} {m : OrdMap α} {k : Nat} (v : α)
    (h : ∀ e ∈ m, k < e.1) : set m k v = (k, v) :: m := by
  cases m with
  | nil => simp [set]
  | cons e rest =>
    have : k < e.1 := h e (List.mem_cons_self e rest)
    simp [set, this]

theorem set_del_of_get {α : Type} {m : OrdMap α} (hw : WF m) {k : Nat} {v : α}
    (hget : get m k = some v) : set (del m k) k v = m := by
  induction m with
  | nil => simp [get] at hget
  | cons e rest ih =>
    have hlt := WF_cons_lt hw
    rw [get_cons] at hget
    by_cases h1 : e.1 = k
    · rw [if_pos h1] at hget
      have hv : e = (k, v) := by
        cases e
        simp only at h1
        simp only [Option.some.injEq] at hget
        simp [h1, hget]
      subst hv
      simp only [del, if_pos rfl]
      exact set_eq_cons_of_lt v hlt
    · rw [if_neg h1] at hget
      have hkmem : (k, v) ∈ rest := get_eq_some_mem hget
      have hek : e.1 < k := by
        have := hlt (k, v) hkmem
        simpa using this
      simp only [del, if_neg h1, set, if_neg (by omega : ¬ k < e.1), if_neg (by omega : ¬ k = e.1)]
      rw [ih (WF_cons_of_WF hw) hget]

end OrdMap

theorem OrdMap.set_get_eq {α : Type} {m : OrdMap α} (hw : OrdMap.WF m) {k : Nat} {v : α}
    (hget : OrdMap.get m k = some v) : OrdMap.set m k v = m := by
  induction m with
  | nil => simp [OrdMap.get] at hget
  | cons e rest ih =>
    have hlt := OrdMap.WF_cons_lt hw
    rw [OrdMap.get_cons] at hget
    by_cases h1 : e.1 = k
    · rw [if_pos h1] at hget
      have hv : e = (k, v) := by
        cases e
        simp only at h1
        simp only [Option.some.injEq] at hget
        simp [h1, hget]
      subst hv
      simp [OrdMap.set]
    · rw [if_neg h1] at hget
      have hek : e.1 < k := by
        have := hlt (k, v) (OrdMap.get_eq_some_mem hget)
        simpa using this
      rw [OrdMap.set, if_neg (by omega : ¬ k < e.1), if_neg (by omega : ¬ k = e.1),
        ih (OrdMap.WF_cons_of_WF hw) hget]

theorem OrdMap.get_of_mem {α : Type} {m : OrdMap α} (hw : OrdMap.WF m) {k : Nat} {v : α}
    (h : (k, v) ∈ m) : OrdMap.get m k = some v := by
  induction m with
  | nil => simp at h
  | cons e rest ih =>
    have hlt := OrdMap.WF_cons_lt hw
    rcases List.mem_cons.mp h with rfl | hmem
    · simp [OrdMap.get_cons]
    · have : e.1 < k := by
        have := hlt (k, v) hmem
        simpa using this
      rw [OrdMap.get_cons, if_neg (by omega), ih (OrdMap.WF_cons_of_WF hw) hmem]

theorem OrdMap.firstGE_mem {α : Type} {m : OrdMap α} {pivot : Nat} {e : Nat × α}
    (h : OrdMap.firstGE m pivot = some e) : e ∈ m ∧ pivot ≤ e.1 := by
  refine ⟨List.mem_of_find?_eq_some h, ?_⟩
  have := List.find?_some h
  simpa using this

/-!
## LeafSet (internal/client/api leaves)

A direct embedding of the leaf-set from the source: an ordered map from
block number to the slice of leaf hashes at that number.
-/

/-- List of leaf hashes ordered by number, stored in memory for fast access. -/
structure LeafSet where
  storage : OrdMap (List Nat)
deriving DecidableEq, Repr

/-- Outcome of an import action: the inserted leaf and the removed parent, if any. -/
structure ImportOutcome where
  insertedHash : Nat
  insertedNumber : Nat
  removed : Option Nat
deriving DecidableEq, Repr

/-- Outcome of a remove action: the re-inserted parent, if any, and the removed leaf. -/
structure RemoveOutcome where
  inserted : Option Nat
  removedHash : Nat
  removedNumber : Nat
deriving DecidableEq, Repr

/-- Outcome of a finalization action: the removed entries. -/
structure FinalizationOutcome where
  removed : OrdMap (List Nat)
deriving DecidableEq, Repr

namespace LeafSet

/-- NewLeafSet: constructor for a new, blank leaf set. -/
def NewLeafSet : LeafSet := ⟨[]⟩

/-- insertLeaf appends the hash to the slice stored at the number
(creating the entry when absent). -/
def insertLeaf (ls : LeafSet) (number hash : Nat) : LeafSet :=
  match OrdMap.get ls.storage number with
  | none => ⟨OrdMap.set ls.storage number [hash]⟩
  | some hashes => ⟨OrdMap.set ls.storage number (hashes ++ [hash])⟩

/-- removeLeaf retains every hash different from the given one, deletes the
entry when it became empty and something was removed, and reports whether a
leaf was found. -/
def removeLeaf (ls : LeafSet) (number hash : Nat) : Bool × LeafSet :=
  match OrdMap.get ls.storage number with
  | none => (false, ls)
  | some leaves =>
    let found := hash ∈ leaves
    let retained := leaves.filter (fun h => h ≠ hash)
    let storage1 := OrdMap.set ls.storage number retained
    if found ∧ retained = [] then (true, ⟨OrdMap.del storage1 number⟩)
    else (decide found, ⟨storage1⟩)

/-- Import updates the leaf list on import: when the number is positive and
the parent is a leaf at the previous number it is removed, then the new leaf
is inserted. -/
def Import (ls : LeafSet) (hash number parentHash : Nat) : LeafSet × ImportOutcome :=
  let (removed, ls1) :=
    if number ≠ 0 then
      let r := removeLeaf ls (number - 1) parentHash
      (if r.1 then some parentHash else none, r.2)
    else (none, ls)
  (insertLeaf ls1 number hash, ⟨hash, number, removed⟩)

/-- Remove updates the leaf list on removal.  Mirrors the source: when the
leaf is absent nothing happens and nil is returned; when the parent hash is
supplied and the number is zero the function returns nil after having
removed the leaf. -/
def Remove (ls : LeafSet) (hash number : Nat) (parentHash : Option Nat) :
    LeafSet × Option RemoveOutcome :=
  match removeLeaf ls number hash with
  | (false, ls1) => (ls1, none)
  | (true, ls1) =>
    match parentHash with
    | some p =>
      if number ≠ 0 then
        (insertLeaf ls1 (number - 1) p, some ⟨some p, hash, number⟩)
      else (ls1, none)
    | none => (ls1, some ⟨none, hash, number⟩)

/-- FinalizeHeight notes a block height finalized.  The source iterates with
storage.Ascend(number-1, cb) where cb deletes the visited entry and returns
false, so only the first entry with key at least number-1 is visited and
removed. -/
def FinalizeHeight (ls : LeafSet) (number : Nat) : LeafSet × FinalizationOutcome :=
  if number = 0 then (ls, ⟨[]⟩)
  else
    let boundary := number - 1
    match OrdMap.firstGE ls.storage boundary with
    | none => (ls, ⟨[]⟩)
    | some e => (⟨OrdMap.del ls.storage e.1⟩, ⟨[(e.1, e.2)]⟩)

/-- DisplacedByFinalHeight simulates FinalizeHeight without mutating. -/
def DisplacedByFinalHeight (ls : LeafSet) (number : Nat) : FinalizationOutcome :=
  if number = 0 then ⟨[]⟩
  else
    match OrdMap.firstGE ls.storage (number - 1) with
    | none => ⟨[]⟩
    | some e => ⟨[(e.1, e.2)]⟩

/-- Contains checks if the given block is a leaf. -/
def Contains (ls : LeafSet) (number hash : Nat) : Bool :=
  match OrdMap.get ls.storage number with
  | some hashes => hash ∈ hashes
  | none => false

/-- Count is the number of known leaves. -/
def Count (ls : LeafSet) : Nat :=
  ls.storage.foldl (fun sum e => sum + e.2.length) 0

/-- Hashes returns all leaf hashes ordered by block number descending. -/
def Hashes (ls : LeafSet) : List Nat :=
  (ls.storage.reverse.map Prod.snd).flatten

/-- Revert drops every leaf above the target number and then makes sure the
best block is a leaf. -/
def Revert (ls : LeafSet) (bestHash bestNumber : Nat) : LeafSet :=
  let items := ls.storage.reverse.flatMap (fun e => e.2.map (fun h => (h, e.1)))
  let ls1 := items.foldl
    (fun acc hn => if hn.2 > bestNumber then (removeLeaf acc hn.2 hn.1).2 else acc) ls
  let leavesContainBest : Bool :=
    match OrdMap.get ls1.storage bestNumber with
    | some hashes => bestHash ∈ hashes
    | none => false
  if leavesContainBest then ls1 else insertLeaf ls1 bestNumber bestHash

/-- UndoImport undoes an imported block given the import outcome. -/
def UndoImport (ls : LeafSet) (outcome : ImportOutcome) : LeafSet :=
  let ls1 :=
    match outcome.removed with
    | some removed => insertLeaf ls (outcome.insertedNumber - 1) removed
    | none => ls
  (removeLeaf ls1 outcome.insertedNumber outcome.insertedHash).2

/-- UndoRemove undoes a removed block given the displaced leaf. -/
def UndoRemove (ls : LeafSet) (outcome : RemoveOutcome) : LeafSet :=
  let ls1 :=
    match outcome.inserted with
    | some inserted => (removeLeaf ls (outcome.removedNumber - 1) inserted).2
    | none => ls
  insertLeaf ls1 outcome.removedNumber outcome.removedHash

/-- UndoFinalization undoes a finalization operation by writing back the
displaced entries (iterating the outcome in descending key order). -/
def UndoFinalization (ls : LeafSet) (outcome : FinalizationOutcome) : LeafSet :=
  ⟨outcome.removed.reverse.foldl (fun st e => OrdMap.set st e.1 e.2) ls.storage⟩

/-- The slice of hashes stored at a number (empty when the entry is absent). -/
def level (ls : LeafSet) (n : Nat) : List Nat :=
  (OrdMap.get ls.storage n).getD []

/-- Observable equality of leaf sets: the same multiset of hashes at every number. -/
def MSEq (s t : LeafSet) : Prop :=
  ∀ n, (↑(level s n) : Multiset Nat) = ↑(level t n)

theorem contains_iff_mem_level (ls : LeafSet) (number hash : Nat) :
    Contains ls number hash = true ↔ hash ∈ level ls number := by
  unfold Contains level
  cases OrdMap.get ls.storage number with
  | none => simp
  | some hashes => simp

theorem level_insertLeaf_self (ls : LeafSet) (number hash : Nat) :
    level (insertLeaf ls number hash) number = level ls number ++ [hash] := by
  unfold insertLeaf level
  cases hg : OrdMap.get ls.storage number with
  | none => simp [OrdMap.get_set_self, hg]
  | some hashes => simp [OrdMap.get_set_self, hg]

theorem level_insertLeaf_ne (ls : LeafSet) (number hash m : Nat) (hm : m ≠ number) :
    level (insertLeaf ls number hash) m = level ls m := by
  unfold insertLeaf level
  cases hg : OrdMap.get ls.storage number with
  | none => simp [OrdMap.get_set_ne _ _ _ _ hm]
  | some hashes => simp [OrdMap.get_set_ne _ _ _ _ hm]

theorem WF_insertLeaf {ls : LeafSet} (hw : OrdMap.WF ls.storage) (number hash : Nat) :
    OrdMap.WF (insertLeaf ls number hash).storage := by
  unfold insertLeaf
  cases OrdMap.get ls.storage number with
  | none => exact OrdMap.WF_set hw _ _
  | some hashes => exact OrdMap.WF_set hw _ _

theorem level_removeLeaf_self {ls : LeafSet} (hw : OrdMap.WF ls.storage)
    (number hash : Nat) :
    level (removeLeaf ls number hash).2 number
      = (level ls number).filter (fun h => h ≠ hash) := by
  unfold removeLeaf level
  cases hg : OrdMap.get ls.storage number with
  | none => simp [hg]
  | some leaves =>
    by_cases hc : hash ∈ leaves ∧ leaves.filter (fun h => h ≠ hash) = []
    · simp only [hg, if_pos hc]
      rw [OrdMap.get_del_self (OrdMap.WF_set hw _ _)]
      simp only [Option.getD_none, Option.getD_some]
      exact hc.2.symm
    · simp only [hg, if_neg hc]
      simp [OrdMap.get_set_self]

theorem level_removeLeaf_ne (ls : LeafSet) (number hash m : Nat) (hm : m ≠ number) :
    level (removeLeaf ls number hash).2 m = level ls m := by
  unfold removeLeaf level
  cases hg : OrdMap.get ls.storage number with
  | none => simp
  | some leaves =>
    by_cases hc : hash ∈ leaves ∧ leaves.filter (fun h => h ≠ hash) = []
    · simp only [hg, if_pos hc]
      rw [OrdMap.get_del_ne _ _ _ hm, OrdMap.get_set_ne _ _ _ _ hm]
    · simp only [hg, if_neg hc]
      rw [OrdMap.get_set_ne _ _ _ _ hm]

theorem WF_removeLeaf {ls : LeafSet} (hw : OrdMap.WF ls.storage) (number hash : Nat) :
    OrdMap.WF (removeLeaf ls number hash).2.storage := by
  unfold removeLeaf
  cases OrdMap.get ls.storage number with
  | none => exact hw
  | some leaves =>
    by_cases hc : hash ∈ leaves ∧ leaves.filter (fun h => h ≠ hash) = []
    · simp only [if_pos hc]
      exact OrdMap.WF_del (OrdMap.WF_set hw _ _) _
    · simp only [if_neg hc]
      exact OrdMap.WF_set hw _ _

theorem removeLeaf_found_iff (ls : LeafSet) (number hash : Nat) :
    (removeLeaf ls number hash).1 = true ↔ hash ∈ level ls number := by
  unfold removeLeaf level
  cases hg : OrdMap.get ls.storage number with
  | none => simp
  | some leaves =>
    by_cases hc : hash ∈ leaves ∧ leaves.filter (fun h => h ≠ hash) = []
    · simp only [if_pos hc]
      simp [hc.1]
    · simp only [if_neg hc]
      simp

/-- A hash absent from a list stays absent after filtering. -/
theorem filter_ne_of_fresh {l : List Nat} {hash : Nat} (h : hash ∉ l) :
    l.filter (fun x => x ≠ hash) = l := by
  induction l with
  | nil => rfl
  | cons a l ih =>
    have ha : a ≠ hash := fun hc => h (by simp [hc])
    have hl : hash ∉ l := fun hc => h (List.mem_cons_of_mem a hc)
    rw [List.filter_cons, if_pos (by simp [ha]), ih hl]

theorem removeLeaf_not_found_eq {ls : LeafSet} (hw : OrdMap.WF ls.storage)
    {number hash : Nat} (h : (removeLeaf ls number hash).1 = false) :
    (removeLeaf ls number hash).2 = ls := by
  have hmem : hash ∉ level ls number := by
    intro hm
    rw [← removeLeaf_found_iff ls number hash] at hm
    simp [hm] at h
  cases hg : OrdMap.get ls.storage number with
  | none => simp [removeLeaf, hg]
  | some leaves =>
    have hnotin : hash ∉ leaves := by
      unfold level at hmem
      simpa [hg] using hmem
    have hfilter : leaves.filter (fun h => h ≠ hash) = leaves :=
      filter_ne_of_fresh hnotin
    have hcond : ¬ (hash ∈ leaves ∧ leaves.filter (fun h => h ≠ hash) = []) :=
      fun hcon => hnotin hcon.1
    simp only [removeLeaf, hg]
    rw [if_neg hcond]
    rw [hfilter, OrdMap.set_get_eq hw hg]

/-- Removing the unique occurrence of a hash and appending it back is a
permutation of the original level. -/
theorem filter_ne_append_of_nodup {l : List Nat} {hash : Nat}
    (hnd : l.Nodup) (hm : hash ∈ l) :
    (↑(l.filter (fun x => x ≠ hash) ++ [hash]) : Multiset Nat) = ↑l := by
  induction l with
  | nil => simp at hm
  | cons a l ih =>
    by_cases hha : hash = a
    · subst hha
      have hnl : hash ∉ l := (List.nodup_cons.mp hnd).1
      have hstep : (hash :: l).filter (fun x => x ≠ hash) = l := by
        rw [List.filter_cons, if_neg (by simp), filter_ne_of_fresh hnl]
      rw [hstep]
      exact Multiset.coe_eq_coe.mpr (List.perm_append_singleton hash l)
    · have hml : hash ∈ l := by
        rcases List.mem_cons.mp hm with h1 | h1
        · exact absurd h1 hha
        · exact h1
      have hstep : (a :: l).filter (fun x => x ≠ hash)
          = a :: l.filter (fun x => x ≠ hash) := by
        rw [List.filter_cons, if_pos (by simp [Ne.symm hha])]
      rw [hstep]
      have hih := ih (List.nodup_cons.mp hnd).2 hml
      calc (↑((a :: l.filter (fun x => x ≠ hash)) ++ [hash]) : Multiset Nat)
          = a ::ₘ ↑(l.filter (fun x => x ≠ hash) ++ [hash]) := by rfl
        _ = a ::ₘ ↑l := by rw [hih]
        _ = ↑(a :: l) := by rfl

theorem Import_eq_zero (ls : LeafSet) (hash parentHash : Nat) :
    Import ls hash 0 parentHash = (insertLeaf ls 0 hash, ⟨hash, 0, none⟩) := by
  simp [Import]

theorem Import_eq_pos (ls : LeafSet) (hash number parentHash : Nat) (h : number ≠ 0) :
    Import ls hash number parentHash =
      (insertLeaf (removeLeaf ls (number - 1) parentHash).2 number hash,
       ⟨hash, number,
        if (removeLeaf ls (number - 1) parentHash).1 then some parentHash else none⟩) := by
  simp [Import, h]

theorem UndoImport_some (ls : LeafSet) (hash number r : Nat) :
    UndoImport ls ⟨hash, number, some r⟩
      = (removeLeaf (insertLeaf ls (number - 1) r) number hash).2 := by
  simp [UndoImport]

theorem UndoImport_none (ls : LeafSet) (hash number : Nat) :
    UndoImport ls ⟨hash, number, none⟩ = (removeLeaf ls number hash).2 := by
  simp [UndoImport]

/-- Removing a freshly appended hash restores every level exactly. -/
theorem remove_insert_cancel {t : LeafSet} (number hash : Nat)
    (hwt : OrdMap.WF t.storage) (hmem : hash ∉ level t number) :
    ∀ n, level (removeLeaf (insertLeaf t number hash) number hash).2 n = level t n := by
  intro n
  by_cases hn : n = number
  · subst hn
    rw [level_removeLeaf_self (WF_insertLeaf hwt _ _), level_insertLeaf_self,
      List.filter_append, filter_ne_of_fresh hmem]
    simp
  · rw [level_removeLeaf_ne _ _ _ _ hn, level_insertLeaf_ne _ _ _ _ hn]

/-- Undoing an import of a block that was not already a leaf restores the
per-number multisets of leaf hashes. -/
theorem import_undo_restores (s : LeafSet) (hash number parentHash : Nat)
    (hw : OrdMap.WF s.storage)
    (hfresh : Contains s number hash = false)
    (hnd : (level s (number - 1)).Nodup) :
    MSEq (UndoImport (Import s hash number parentHash).1
      (Import s hash number parentHash).2) s := by
  have hmem : hash ∉ level s number := by
    intro hm
    rw [← contains_iff_mem_level] at hm
    rw [hfresh] at hm
    cases hm
  by_cases hz : number = 0
  · subst hz
    rw [Import_eq_zero]
    intro n
    rw [UndoImport_none, remove_insert_cancel 0 hash hw hmem n]
  · rw [Import_eq_pos _ _ _ _ hz]
    by_cases hr : (removeLeaf s (number - 1) parentHash).1 = true
    · simp only [hr, if_true]
      have hnum : number - 1 ≠ number := by omega
      have hw1 : OrdMap.WF (removeLeaf s (number - 1) parentHash).2.storage :=
        WF_removeLeaf hw _ _
      have hw2 : OrdMap.WF
          (insertLeaf (removeLeaf s (number - 1) parentHash).2 number hash).storage :=
        WF_insertLeaf hw1 _ _
      have hw3 : OrdMap.WF (insertLeaf
          (insertLeaf (removeLeaf s (number - 1) parentHash).2 number hash)
          (number - 1) parentHash).storage :=
        WF_insertLeaf hw2 _ _
      rw [UndoImport_some]
      intro n
      by_cases hn1 : n = number
      · subst hn1
        rw [level_removeLeaf_self hw3, level_insertLeaf_ne _ _ _ _ (Ne.symm hnum),
          level_insertLeaf_self, level_removeLeaf_ne _ _ _ _ (Ne.symm hnum),
          List.filter_append, filter_ne_of_fresh hmem]
        simp
      · by_cases hn2 : n = number - 1
        · subst hn2
          rw [level_removeLeaf_ne _ _ _ _ hn1, level_insertLeaf_self,
            level_insertLeaf_ne _ _ _ _ hnum,
            level_removeLeaf_self hw]
          exact filter_ne_append_of_nodup hnd
            ((removeLeaf_found_iff s (number - 1) parentHash).mp hr)
        · rw [level_removeLeaf_ne _ _ _ _ hn1, level_insertLeaf_ne _ _ _ _ hn2,
            level_insertLeaf_ne _ _ _ _ hn1, level_removeLeaf_ne _ _ _ _ hn2]
    · have hrf : (removeLeaf s (number - 1) parentHash).1 = false := by
        simpa using hr
      have hreq : (removeLeaf s (number - 1) parentHash).2 = s :=
        removeLeaf_not_found_eq hw hrf
      simp only [hrf, hreq]
      rw [show (if ((false : Bool) = true) then some parentHash else none)
          = (none : Option Nat) from rfl]
      rw [UndoImport_none]
      intro n
      rw [remove_insert_cancel number hash hw hmem n]

theorem Remove_eq_of_not_found {ls : LeafSet} {number hash : Nat} (parentHash : Option Nat)
    (h : (removeLeaf ls number hash).1 = false) :
    Remove ls hash number parentHash = ((removeLeaf ls number hash).2, none) := by
  unfold Remove
  cases hrl : removeLeaf ls number hash with
  | mk b t =>
    rw [hrl] at h
    simp only at h
    subst h
    rfl

theorem Remove_eq_found_none {ls ls1 : LeafSet} {number hash : Nat}
    (h : removeLeaf ls number hash = (true, ls1)) :
    Remove ls hash number none = (ls1, some ⟨none, hash, number⟩) := by
  unfold Remove
  rw [h]

theorem Remove_eq_found_some_zero {ls ls1 : LeafSet} {hash : Nat} (p : Nat)
    (h : removeLeaf ls 0 hash = (true, ls1)) :
    Remove ls hash 0 (some p) = (ls1, none) := by
  unfold Remove
  rw [h]
  rfl

theorem Remove_eq_found_some {ls ls1 : LeafSet} {number hash : Nat} (p : Nat)
    (h : removeLeaf ls number hash = (true, ls1)) (hnz : number ≠ 0) :
    Remove ls hash number (some p)
      = (insertLeaf ls1 (number - 1) p, some ⟨some p, hash, number⟩) := by
  unfold Remove
  rw [h]
  simp [hnz]

theorem UndoRemove_some (ls : LeafSet) (p hash number : Nat) :
    UndoRemove ls ⟨some p, hash, number⟩
      = insertLeaf (removeLeaf ls (number - 1) p).2 number hash := by
  simp [UndoRemove]

theorem UndoRemove_none (ls : LeafSet) (hash number : Nat) :
    UndoRemove ls ⟨none, hash, number⟩ = insertLeaf ls number hash := by
  simp [UndoRemove]

/-- Undoing a remove that returned an outcome restores the per-number
multisets of leaf hashes, provided the re-inserted parent was not already a
leaf. -/
theorem remove_undo_restores (s : LeafSet) (hash number : Nat) (parentHash : Option Nat)
    (o : RemoveOutcome) (hw : OrdMap.WF s.storage)
    (hnd : (level s number).Nodup)
    (hpf : ∀ pp, parentHash = some pp → Contains s (number - 1) pp = false)
    (ho : (Remove s hash number parentHash).2 = some o) :
    MSEq (UndoRemove (Remove s hash number parentHash).1 o) s := by
  cases hrl : removeLeaf s number hash with
  | mk b t =>
    cases b with
    | false =>
      rw [Remove_eq_of_not_found parentHash (by rw [hrl])] at ho
      simp at ho
    | true =>
      have hfound : hash ∈ level s number :=
        (removeLeaf_found_iff s number hash).mp (by rw [hrl])
      have hteq : t = (removeLeaf s number hash).2 := by rw [hrl]
      have hwt : OrdMap.WF t.storage := by
        rw [hteq]
        exact WF_removeLeaf hw _ _
      have hlt : ∀ n, n ≠ number → level t n = level s n := by
        intro n hn
        rw [hteq, level_removeLeaf_ne _ _ _ _ hn]
      have hltn : level t number = (level s number).filter (fun x => x ≠ hash) := by
        rw [hteq, level_removeLeaf_self hw]
      cases parentHash with
      | none =>
        rw [Remove_eq_found_none hrl] at ho ⊢
        simp only [Option.some.injEq] at ho
        subst ho
        rw [UndoRemove_none]
        intro n
        by_cases hn : n = number
        · subst hn
          rw [level_insertLeaf_self, hltn]
          exact filter_ne_append_of_nodup hnd hfound
        · rw [level_insertLeaf_ne _ _ _ _ hn, hlt n hn]
      | some pp =>
        by_cases hnz : number = 0
        · subst hnz
          rw [Remove_eq_found_some_zero pp hrl] at ho
          simp at ho
        · rw [Remove_eq_found_some pp hrl hnz] at ho ⊢
          simp only [Option.some.injEq] at ho
          subst ho
          rw [UndoRemove_some]
          have hnum : number - 1 ≠ number := by omega
          have hppf : pp ∉ level t (number - 1) := by
            rw [hlt _ hnum]
            intro hm
            rw [← contains_iff_mem_level] at hm
            rw [hpf pp rfl] at hm
            cases hm
          have hcancel := remove_insert_cancel (number - 1) pp hwt hppf
          intro n
          by_cases hn : n = number
          · subst hn
            rw [level_insertLeaf_self, hcancel, hltn]
            exact filter_ne_append_of_nodup hnd hfound
          · rw [level_insertLeaf_ne _ _ _ _ hn, hcancel, hlt n hn]

/-- Undoing a finalization restores the leaf set exactly: the removed entry
is written back unchanged. -/
theorem finalize_undo_restores (s : LeafSet) (number : Nat)
    (hw : OrdMap.WF s.storage) :
    UndoFinalization (FinalizeHeight s number).1 (FinalizeHeight s number).2 = s := by
  unfold FinalizeHeight
  by_cases hz : number = 0
  · simp [hz, UndoFinalization]
  · simp only [if_neg hz]
    cases hfg : OrdMap.firstGE s.storage (number - 1) with
    | none => simp [UndoFinalization]
    | some e =>
      have hms := OrdMap.firstGE_mem hfg
      have hget : OrdMap.get s.storage e.1 = some e.2 :=
        OrdMap.get_of_mem hw hms.1
      simp only [UndoFinalization, List.reverse_cons, List.reverse_nil,
        List.nil_append, List.foldl_cons, List.foldl_nil]
      rw [OrdMap.set_del_of_get hw hget]

/-- Per-number duplicate freedom: no hash appears twice at the same number. -/
def NodupLevels (s : LeafSet) : Prop := ∀ n, (level s n).Nodup

/-- One guarded operation on the leaf set.  The guards are what the callers
guarantee: Import never re-imports an existing leaf, a parent supplied to
Remove is not itself a leaf, and undo outcomes are consumed once, right
after the operation they undo (so the hashes they re-insert are absent). -/
inductive Step : LeafSet → LeafSet → Prop where
  | importStep (s : LeafSet) (hash number parentHash : Nat)
      (hfresh : Contains s number hash = false) :
      Step s (Import s hash number parentHash).1
  | removeStep (s : LeafSet) (hash number : Nat) (parentHash : Option Nat)
      (hpf : ∀ pp, parentHash = some pp → Contains s (number - 1) pp = false) :
      Step s (Remove s hash number parentHash).1
  | finalizeStep (s : LeafSet) (number : Nat) :
      Step s (FinalizeHeight s number).1
  | revertStep (s : LeafSet) (bestHash bestNumber : Nat) :
      Step s (Revert s bestHash bestNumber)
  | undoImportStep (s : LeafSet) (o : ImportOutcome)
      (hf : ∀ r, o.removed = some r → Contains s (o.insertedNumber - 1) r = false) :
      Step s (UndoImport s o)
  | undoRemoveStep (s : LeafSet) (o : RemoveOutcome)
      (hf : Contains s o.removedNumber o.removedHash = false) :
      Step s (UndoRemove s o)
  | undoFinalizationStep (s : LeafSet) (o : FinalizationOutcome)
      (hnd : ∀ e ∈ o.removed, e.2.Nodup) :
      Step s (UndoFinalization s o)

/-- Leaf sets reachable from the blank leaf set by guarded operations. -/
inductive Reachable : LeafSet → Prop where
  | init : Reachable NewLeafSet
  | next {s t : LeafSet} : Reachable s → Step s t → Reachable t

theorem not_mem_level_of_contains_false {s : LeafSet} {number hash : Nat}
    (h : Contains s number hash = false) : hash ∉ level s number := by
  intro hm
  rw [← contains_iff_mem_level] at hm
  rw [h] at hm
  cases hm

theorem inv_insertLeaf {s : LeafSet} (hw : OrdMap.WF s.storage) (hnd : NodupLevels s)
    {number hash : Nat} (hfresh : hash ∉ level s number) :
    OrdMap.WF (insertLeaf s number hash).storage ∧ NodupLevels (insertLeaf s number hash) := by
  refine ⟨WF_insertLeaf hw _ _, ?_⟩
  intro n
  by_cases hn : n = number
  · subst hn
    rw [level_insertLeaf_self]
    refine List.Nodup.append (hnd _) (List.nodup_singleton hash) ?_
    intro a ha hb
    rw [List.mem_singleton] at hb
    subst hb
    exact hfresh ha
  · rw [level_insertLeaf_ne _ _ _ _ hn]
    exact hnd n

theorem inv_removeLeaf {s : LeafSet} (hw : OrdMap.WF s.storage) (hnd : NodupLevels s)
    (number hash : Nat) :
    OrdMap.WF (removeLeaf s number hash).2.storage
      ∧ NodupLevels (removeLeaf s number hash).2 := by
  refine ⟨WF_removeLeaf hw _ _, ?_⟩
  intro n
  by_cases hn : n = number
  · subst hn
    rw [level_removeLeaf_self hw]
    exact (hnd n).filter _
  · rw [level_removeLeaf_ne _ _ _ _ hn]
    exact hnd n

theorem not_mem_level_removeLeaf {s : LeafSet} (hw : OrdMap.WF s.storage)
    {m hash : Nat} (number p : Nat) (h : hash ∉ level s m) :
    hash ∉ level (removeLeaf s number p).2 m := by
  by_cases hn : m = number
  · subst hn
    rw [level_removeLeaf_self hw]
    intro hm
    exact h (List.mem_of_mem_filter hm)
  · rw [level_removeLeaf_ne _ _ _ _ hn]
    exact h

theorem inv_import {s : LeafSet} (hw : OrdMap.WF s.storage) (hnd : NodupLevels s)
    (hash number parentHash : Nat) (hfresh : Contains s number hash = false) :
    OrdMap.WF (Import s hash number parentHash).1.storage
      ∧ NodupLevels (Import s hash number parentHash).1 := by
  have hmem := not_mem_level_of_contains_false hfresh
  by_cases hz : number = 0
  · subst hz
    rw [Import_eq_zero]
    exact inv_insertLeaf hw hnd hmem
  · rw [Import_eq_pos _ _ _ _ hz]
    have hr := inv_removeLeaf hw hnd (number - 1) parentHash
    refine inv_insertLeaf hr.1 hr.2 ?_
    exact not_mem_level_removeLeaf hw _ _ hmem

theorem inv_remove {s : LeafSet} (hw : OrdMap.WF s.storage) (hnd : NodupLevels s)
    (hash number : Nat) (parentHash : Option Nat)
    (hpf : ∀ pp, parentHash = some pp → Contains s (number - 1) pp = false) :
    OrdMap.WF (Remove s hash number parentHash).1.storage
      ∧ NodupLevels (Remove s hash number parentHash).1 := by
  cases hrl : removeLeaf s number hash with
  | mk b t =>
    cases b with
    | false =>
      rw [Remove_eq_of_not_found parentHash (by rw [hrl])]
      exact inv_removeLeaf hw hnd number hash
    | true =>
      have ht := inv_removeLeaf hw hnd number hash
      rw [hrl] at ht
      cases parentHash with
      | none =>
        rw [Remove_eq_found_none hrl]
        exact ht
      | some pp =>
        by_cases hnz : number = 0
        · subst hnz
          rw [Remove_eq_found_some_zero pp hrl]
          exact ht
        · rw [Remove_eq_found_some pp hrl hnz]
          refine inv_insertLeaf ht.1 ht.2 ?_
          have : t = (removeLeaf s number hash).2 := by rw [hrl]
          rw [this]
          exact not_mem_level_removeLeaf hw _ _
            (not_mem_level_of_contains_false (hpf pp rfl))

theorem inv_finalizeHeight {s : LeafSet} (hw : OrdMap.WF s.storage) (hnd : NodupLevels s)
    (number : Nat) :
    OrdMap.WF (FinalizeHeight s number).1.storage
      ∧ NodupLevels (FinalizeHeight s number).1 := by
  unfold FinalizeHeight
  by_cases hz : number = 0
  · simp only [if_pos hz]
    exact ⟨hw, hnd⟩
  · simp only [if_neg hz]
    cases hfg : OrdMap.firstGE s.storage (number - 1) with
    | none => exact ⟨hw, hnd⟩
    | some e =>
      refine ⟨OrdMap.WF_del hw _, ?_⟩
      intro n
      unfold level
      by_cases hn : n = e.1
      · subst hn
        rw [OrdMap.get_del_self hw]
        exact List.nodup_nil
      · rw [OrdMap.get_del_ne _ _ _ hn]
        exact hnd n

theorem inv_guardedInsert (u : LeafSet) (hwu : OrdMap.WF u.storage)
    (hndu : NodupLevels u) (bestHash bestNumber : Nat) :
    OrdMap.WF (if (match OrdMap.get u.storage bestNumber with
        | some hashes => (bestHash ∈ hashes : Bool)
        | none => false) = true then u
      else insertLeaf u bestNumber bestHash).storage
    ∧ NodupLevels (if (match OrdMap.get u.storage bestNumber with
        | some hashes => (bestHash ∈ hashes : Bool)
        | none => false) = true then u
      else insertLeaf u bestNumber bestHash) := by
  have hEq : (match OrdMap.get u.storage bestNumber with
      | some hashes => (bestHash ∈ hashes : Bool)
      | none => false) = Contains u bestNumber bestHash := rfl
  rw [hEq]
  by_cases hcb : Contains u bestNumber bestHash = true
  · rw [if_pos hcb]
    exact ⟨hwu, hndu⟩
  · have hcf : Contains u bestNumber bestHash = false := by simpa using hcb
    rw [if_neg hcb]
    exact inv_insertLeaf hwu hndu (not_mem_level_of_contains_false hcf)

theorem inv_revert {s : LeafSet} (hw : OrdMap.WF s.storage) (hnd : NodupLevels s)
    (bestHash bestNumber : Nat) :
    OrdMap.WF (Revert s bestHash bestNumber).storage
      ∧ NodupLevels (Revert s bestHash bestNumber) := by
  have hfold : ∀ (items : List (Nat × Nat)) (u : LeafSet),
      OrdMap.WF u.storage → NodupLevels u →
      OrdMap.WF ((items.foldl (fun acc hn =>
        if hn.2 > bestNumber then (removeLeaf acc hn.2 hn.1).2 else acc) u).storage)
      ∧ NodupLevels (items.foldl (fun acc hn =>
        if hn.2 > bestNumber then (removeLeaf acc hn.2 hn.1).2 else acc) u) := by
    intro items
    induction items with
    | nil => intro u hu1 hu2; exact ⟨hu1, hu2⟩
    | cons e rest ih =>
      intro u hu1 hu2
      simp only [List.foldl_cons]
      by_cases he : e.2 > bestNumber
      · rw [if_pos he]
        have := inv_removeLeaf hu1 hu2 e.2 e.1
        exact ih _ this.1 this.2
      · rw [if_neg he]
        exact ih u hu1 hu2
  have h1 := hfold (s.storage.reverse.flatMap (fun e => e.2.map (fun h => (h, e.1)))) s hw hnd
  simp only [Revert]
  exact inv_guardedInsert _ h1.1 h1.2 bestHash bestNumber

theorem inv_undoImport {s : LeafSet} (hw : OrdMap.WF s.storage) (hnd : NodupLevels s)
    (o : ImportOutcome)
    (hf : ∀ r, o.removed = some r → Contains s (o.insertedNumber - 1) r = false) :
    OrdMap.WF (UndoImport s o).storage ∧ NodupLevels (UndoImport s o) := by
  unfold UndoImport
  cases ho : o.removed with
  | none =>
    exact inv_removeLeaf hw hnd _ _
  | some r =>
    have h1 := inv_insertLeaf hw hnd (not_mem_level_of_contains_false (hf r ho))
    exact inv_removeLeaf h1.1 h1.2 _ _

theorem inv_undoRemove {s : LeafSet} (hw : OrdMap.WF s.storage) (hnd : NodupLevels s)
    (o : RemoveOutcome)
    (hf : Contains s o.removedNumber o.removedHash = false) :
    OrdMap.WF (UndoRemove s o).storage ∧ NodupLevels (UndoRemove s o) := by
  unfold UndoRemove
  cases ho : o.inserted with
  | none =>
    exact inv_insertLeaf hw hnd (not_mem_level_of_contains_false hf)
  | some p =>
    have h1 := inv_removeLeaf hw hnd (o.removedNumber - 1) p
    refine inv_insertLeaf h1.1 h1.2 ?_
    exact not_mem_level_removeLeaf hw _ _ (not_mem_level_of_contains_false hf)

theorem inv_undoFinalization {s : LeafSet} (hw : OrdMap.WF s.storage)
    (hnd : NodupLevels s) (o : FinalizationOutcome)
    (hond : ∀ e ∈ o.removed, e.2.Nodup) :
    OrdMap.WF (UndoFinalization s o).storage ∧ NodupLevels (UndoFinalization s o) := by
  unfold UndoFinalization
  have hgen : ∀ (l : OrdMap (List Nat)) (st : OrdMap (List Nat)),
      OrdMap.WF st → (∀ n, ((OrdMap.get st n).getD []).Nodup) →
      (∀ e ∈ l, e.2.Nodup) →
      OrdMap.WF (l.foldl (fun st e => OrdMap.set st e.1 e.2) st)
      ∧ ∀ n, ((OrdMap.get (l.foldl (fun st e => OrdMap.set st e.1 e.2) st) n).getD []).Nodup := by
    intro l
    induction l with
    | nil => intro st h1 h2 _; exact ⟨h1, h2⟩
    | cons e rest ih =>
      intro st h1 h2 h3
      simp only [List.foldl_cons]
      refine ih _ (OrdMap.WF_set h1 _ _) ?_ (fun e' he' => h3 e' (List.mem_cons_of_mem e he'))
      intro n
      by_cases hn : n = e.1
      · subst hn
        rw [OrdMap.get_set_self]
        exact h3 e (List.mem_cons_self e rest)
      · rw [OrdMap.get_set_ne _ _ _ _ hn]
        exact h2 n
  have := hgen o.removed.reverse s.storage hw hnd
    (fun e he => hond e (List.mem_reverse.mp he))
  exact ⟨this.1, this.2⟩

/-- Every leaf set reachable by guarded operations keeps a well-formed
storage map and duplicate-free levels. -/
theorem reachable_inv {s : LeafSet} (h : Reachable s) :
    OrdMap.WF s.storage ∧ NodupLevels s := by
  induction h with
  | init =>
    constructor
    · exact OrdMap.WF_nil
    · intro n
      simp [NewLeafSet, level, OrdMap.get]
  | next _ hstep ih =>
    cases hstep with
    | importStep hash number parentHash hfresh =>
      exact inv_import ih.1 ih.2 hash number parentHash hfresh
    | removeStep hash number parentHash hpf =>
      exact inv_remove ih.1 ih.2 hash number parentHash hpf
    | finalizeStep number => exact inv_finalizeHeight ih.1 ih.2 number
    | revertStep bestHash bestNumber => exact inv_revert ih.1 ih.2 bestHash bestNumber
    | undoImportStep o hf => exact inv_undoImport ih.1 ih.2 o hf
    | undoRemoveStep o hf => exact inv_undoRemove ih.1 ih.2 o hf
    | undoFinalizationStep o hond => exact inv_undoFinalization ih.1 ih.2 o hond

end LeafSet

open LeafSet in
/-- C9 (amended): every leaf set reachable from the blank one by Import,
Remove, FinalizeHeight, Revert and the undo operations keeps every number's
hash list duplicate-free, provided the callers respect the documented
contracts: Import is not called for a block that is already a leaf, a
parent supplied to Remove is not already a leaf, and undo outcomes are
applied once in LIFO order. -/
theorem claim_C9_leafset_no_duplicates (s : LeafSet) (h : Reachable s) :
    ∀ n, (level s n).Nodup :=
  (reachable_inv h).2

open LeafSet in
/-- Witness: the no-duplicates theorem applied to a concrete reachable state. -/
theorem claim_C9_leafset_no_duplicates_witness :
    (level (Import NewLeafSet 7 1 0).1 1).Nodup :=
  claim_C9_leafset_no_duplicates (Import NewLeafSet 7 1 0).1
    (Reachable.next Reachable.init (Step.importStep NewLeafSet 7 1 0 (by decide))) 1

/-!
## ChangeTree (GRANDPA pending-change forest)

A direct embedding of the fork tree from the source.  The descendant
oracle returns `none` on failure (the source returns an error, whose
content the tree only propagates).  Each operation returns the receiver
state at the point the source returns, together with its result.
-/

/-- A pending authority-set change; only the canonical hash and height are
used by the tree, the remaining fields of the source struct are payload. -/
structure PendingChange where
  canonHash : Nat
  canonHeight : Nat
deriving DecidableEq, Repr

/-- A node of the change tree: a change and its children in insertion order. -/
inductive PendingChangeNode where
  | node (change : PendingChange) (children : List PendingChangeNode)

/-- The change stored in a node. -/
def PendingChangeNode.change : PendingChangeNode → PendingChange
  | .node c _ => c

/-- The children of a node. -/
def PendingChangeNode.children : PendingChangeNode → List PendingChangeNode
  | .node _ cs => cs

/-- The forest of pending changes plus the best finalized number. -/
structure ChangeTree where
  treeRoots : List PendingChangeNode
  bestFinalizedNumber : Option Nat

/-- The errors of the change tree; the oracle's own error is propagated as
oracleFailure. -/
inductive ChangeTreeError where
  | duplicateHashes
  | unfinalisedAncestor
  | revert
  | oracleFailure
deriving DecidableEq, Repr

/-- The finalization result: a finalized change, a pruning-only change, or
no change (the source's varying data type with variants changed{value} and
unchanged). -/
inductive FinalizationResult where
  | changed (value : Option PendingChange)
  | unchanged
deriving DecidableEq, Repr

/-- The descendant oracle: none models the error return. -/
abbrev IsDescendentOf : Type := Nat → Nat → Option Bool

mutual

/-- importNode from the source: fails on a duplicate hash, descends into a
node when the new block descends from it at a strictly larger height, tries
the children in order and otherwise appends a new leaf child.  Returns none
when this subtree did not claim the import (then the source leaves the node
untouched); all error returns occur before any mutation. -/
def importNode (pcn : PendingChangeNode) (hash number : Nat) (change : PendingChange)
    (isDescendentOf : IsDescendentOf) :
    Except ChangeTreeError (Option PendingChangeNode) :=
  match pcn with
  | .node nodeChange children =>
    if hash = nodeChange.canonHash then .error .duplicateHashes
    else
      match isDescendentOf nodeChange.canonHash hash with
      | none => .error .oracleFailure
      | some isDescendant =>
        if ¬ isDescendant then .ok none
        else if number ≤ nodeChange.canonHeight then .ok none
        else
          match importChildren children hash number change isDescendentOf with
          | .error e => .error e
          | .ok (some children') => .ok (some (.node nodeChange children'))
          | .ok none => .ok (some (.node nodeChange (children ++ [.node change []])))
termination_by sizeOf pcn

/-- The loop over a node list calling importNode on each element in order;
the first element that claims the import is replaced by its updated copy. -/
def importChildren (l : List PendingChangeNode) (hash number : Nat)
    (change : PendingChange) (isDescendentOf : IsDescendentOf) :
    Except ChangeTreeError (Option (List PendingChangeNode)) :=
  match l with
  | [] => .ok none
  | c :: rest =>
    match importNode c hash number change isDescendentOf with
    | .error e => .error e
    | .ok (some c') => .ok (some (c' :: rest))
    | .ok none =>
      match importChildren rest hash number change isDescendentOf with
      | .error e => .error e
      | .ok (some rest') => .ok (some (c :: rest'))
      | .ok none => .ok none
termination_by sizeOf l

end

namespace ChangeTree

/-- NewChangeTree creates an empty ChangeTree. -/
def NewChangeTree : ChangeTree := ⟨[], none⟩

/-- Import a new node into the roots; appends a new root and returns true
when no existing root claims it.  Note: the source performs no check
against bestFinalizedNumber here. -/
def Import (ct : ChangeTree) (hash number : Nat) (change : PendingChange)
    (isDescendentOf : IsDescendentOf) : ChangeTree × Except ChangeTreeError Bool :=
  match importChildren ct.treeRoots hash number change isDescendentOf with
  | .error e => (ct, .error e)
  | .ok (some roots') => ({ ct with treeRoots := roots' }, .ok false)
  | .ok none => ({ ct with treeRoots := ct.treeRoots ++ [.node change []] }, .ok true)

end ChangeTree

mutual

/-- Pre-order traversal of a node. -/
def preorderNode (n : PendingChangeNode) : List PendingChangeNode :=
  match n with
  | .node c cs => .node c cs :: preorderList cs
termination_by sizeOf n

/-- Pre-order traversal of a node list. -/
def preorderList (l : List PendingChangeNode) : List PendingChangeNode :=
  match l with
  | [] => []
  | c :: rest => preorderNode c ++ preorderList rest
termination_by sizeOf l

end

namespace ChangeTree

/-- getPreOrderChangeNodes from the source: all nodes in pre-order. -/
def getPreOrderChangeNodes (ct : ChangeTree) : List PendingChangeNode :=
  preorderList ct.treeRoots

end ChangeTree

/-- The inner check of the Finalize* functions: a child at height at most
the finalizing number which equals the finalizing block or is an ancestor
of it makes the finalization invalid. -/
def checkChildren (children : List PendingChangeNode) (hash number : Nat)
    (isDescendentOf : IsDescendentOf) : Except ChangeTreeError Unit :=
  match children with
  | [] => .ok ()
  | child :: rest =>
    match isDescendentOf child.change.canonHash hash with
    | none => .error .oracleFailure
    | some isChildDesc =>
      if child.change.canonHeight ≤ number ∧ (child.change.canonHash = hash ∨ isChildDesc)
      then .error .unfinalisedAncestor
      else checkChildren rest hash number isDescendentOf

/-- The node scan of FinalizesAnyWithDescendentIf: find the first pre-order
node matched by the predicate and equal to or an ancestor of the block,
validate its children, and report whether it is a root. -/
def finalizesAnyLoop (nodes roots : List PendingChangeNode) (hash number : Nat)
    (isDescendentOf : IsDescendentOf) (predicate : PendingChange → Bool) :
    Except ChangeTreeError (Option Bool) :=
  match nodes with
  | [] => .ok none
  | root :: rest =>
    match isDescendentOf root.change.canonHash hash with
    | none => .error .oracleFailure
    | some isDesc =>
      if predicate root.change ∧ (root.change.canonHash = hash ∨ isDesc) then
        match checkChildren root.children hash number isDescendentOf with
        | .error e => .error e
        | .ok _ =>
          .ok (some (roots.any (fun val => val.change.canonHash == root.change.canonHash)))
      else finalizesAnyLoop rest roots hash number isDescendentOf predicate

namespace ChangeTree

/-- FinalizesAnyWithDescendentIf from the source: a pure query; the
receiver state is returned unchanged at every exit. -/
def FinalizesAnyWithDescendentIf (ct : ChangeTree) (hash number : Nat)
    (isDescendentOf : IsDescendentOf) (predicate : PendingChange → Bool) :
    ChangeTree × Except ChangeTreeError (Option Bool) :=
  (ct,
    if (match ct.bestFinalizedNumber with
        | some best => (number ≤ best : Bool)
        | none => false)
    then .error .revert
    else finalizesAnyLoop (getPreOrderChangeNodes ct) ct.treeRoots hash number
      isDescendentOf predicate)

/-- swapRemove: remove the element at the index, replacing it with the last
element.  The only caller passes an index produced by a scan of the list. -/
def swapRemove (roots : List PendingChangeNode) (index : Nat) :
    PendingChangeNode × List PendingChangeNode :=
  let dummy : PendingChangeNode := .node ⟨0, 0⟩ []
  let val := roots.getD index dummy
  let lastElem := roots.getD (roots.length - 1) dummy
  let newRoots := roots.dropLast
  if index = newRoots.length then (val, newRoots)
  else (val, newRoots.set index lastElem)

end ChangeTree

/-- The root scan of FinalizeWithDescendentIf: the index of the first root
matched by the predicate and equal to or an ancestor of the block, with its
children validated. -/
def finalizeFindPosition (roots : List PendingChangeNode) (idx hash number : Nat)
    (isDescendentOf : IsDescendentOf) (predicate : PendingChange → Bool) :
    Except ChangeTreeError (Option Nat) :=
  match roots with
  | [] => .ok none
  | root :: rest =>
    match isDescendentOf root.change.canonHash hash with
    | none => .error .oracleFailure
    | some isDesc =>
      if predicate root.change ∧ (root.change.canonHash = hash ∨ isDesc) then
        match checkChildren root.children hash number isDescendentOf with
        | .error e => .error e
        | .ok _ => .ok (some idx)
      else finalizeFindPosition rest (idx + 1) hash number isDescendentOf predicate

/-- The retention loop of FinalizeWithDescendentIf: keep a root when it is
above the finalized number and descends from the block, is the block, or is
an ancestor of the block.  The best finalized number is assigned at the end
of every iteration; on an oracle error the state accumulated so far is
returned, as in the source. -/
def finalizeRetainLoop (roots : List PendingChangeNode) (hash number : Nat)
    (isDescendentOf : IsDescendentOf) (accRoots : List PendingChangeNode)
    (best : Option Nat) (didChange : Bool) :
    ChangeTree × Except ChangeTreeError Bool :=
  match roots with
  | [] => (⟨accRoots, best⟩, .ok didChange)
  | root :: rest =>
    let step : Except ChangeTreeError Bool :=
      if number < root.change.canonHeight then
        match isDescendentOf hash root.change.canonHash with
        | none => .error .oracleFailure
        | some isDescA => .ok isDescA
      else if root.change.canonHeight = number ∧ root.change.canonHash = hash then
        .ok true
      else
        match isDescendentOf root.change.canonHash hash with
        | none => .error .oracleFailure
        | some isDescB => .ok isDescB
    match step with
    | .error e => (⟨accRoots, best⟩, .error e)
    | .ok retain =>
      if retain then
        finalizeRetainLoop rest hash number isDescendentOf (accRoots ++ [root])
          (some number) didChange
      else
        finalizeRetainLoop rest hash number isDescendentOf accRoots
          (some number) true

namespace ChangeTree

/-- FinalizeWithDescendentIf from the source: check against the best
finalized number, locate a matching root, swap-remove it (promoting its
children and recording its height as best finalized), then prune the
remaining roots. -/
def FinalizeWithDescendentIf (ct : ChangeTree) (hash number : Nat)
    (isDescendentOf : IsDescendentOf) (predicate : PendingChange → Bool) :
    ChangeTree × Except ChangeTreeError FinalizationResult :=
  if (match ct.bestFinalizedNumber with
      | some best => (number ≤ best : Bool)
      | none => false)
  then (ct, .error .revert)
  else
    match finalizeFindPosition ct.treeRoots 0 hash number isDescendentOf predicate with
    | .error e => (ct, .error e)
    | .ok position =>
      let (nodeData, tree1) :=
        match position with
        | some idx =>
          let nodeAndRest := swapRemove ct.treeRoots idx
          (some nodeAndRest.1.change,
           (⟨nodeAndRest.1.children, some nodeAndRest.1.change.canonHeight⟩ : ChangeTree))
        | none => (none, ct)
      match finalizeRetainLoop tree1.treeRoots hash number isDescendentOf []
          tree1.bestFinalizedNumber false with
      | (tree2, .error e) => (tree2, .error e)
      | (tree2, .ok didChange) =>
        match nodeData with
        | some change => (tree2, .ok (.changed (some change)))
        | none =>
          if didChange then (tree2, .ok (.changed none))
          else (tree2, .ok .unchanged)

end ChangeTree

/-- Every error of the retention loop is an oracle failure: the loop itself
raises no structural error. -/
theorem finalizeRetainLoop_error_oracle :
    ∀ (roots : List PendingChangeNode) (hash number : Nat) (f : IsDescendentOf)
      (acc : List PendingChangeNode) (best : Option Nat) (dc : Bool)
      (t : ChangeTree) (e : ChangeTreeError),
      finalizeRetainLoop roots hash number f acc best dc = (t, .error e) →
      e = .oracleFailure := by
  intro roots
  induction roots with
  | nil =>
    intro hash number f acc best dc t e h
    simp [finalizeRetainLoop] at h
  | cons root rest ih =>
    intro hash number f acc best dc t e h
    simp only [finalizeRetainLoop] at h
    by_cases h1 : number < root.change.canonHeight
    · rw [if_pos h1] at h
      cases hf : f hash root.change.canonHash with
      | none =>
        rw [hf] at h
        simp only [Prod.mk.injEq, Except.error.injEq] at h
        exact h.2.symm
      | some b =>
        rw [hf] at h
        by_cases hb : b = true
        · subst hb
          simp only [if_true] at h
          exact ih _ _ _ _ _ _ _ _ h
        · have hb' : b = false := by simpa using hb
          subst hb'
          simp only [Bool.false_eq_true, if_false] at h
          exact ih _ _ _ _ _ _ _ _ h
    · rw [if_neg h1] at h
      by_cases h2 : root.change.canonHeight = number ∧ root.change.canonHash = hash
      · rw [if_pos h2] at h
        simp only [if_true] at h
        exact ih _ _ _ _ _ _ _ _ h
      · rw [if_neg h2] at h
        cases hf : f root.change.canonHash hash with
        | none =>
          rw [hf] at h
          simp only [Prod.mk.injEq, Except.error.injEq] at h
          exact h.2.symm
        | some b =>
          rw [hf] at h
          by_cases hb : b = true
          · subst hb
            simp only [if_true] at h
            exact ih _ _ _ _ _ _ _ _ h
          · have hb' : b = false := by simpa using hb
            subst hb'
            simp only [Bool.false_eq_true, if_false] at h
            exact ih _ _ _ _ _ _ _ _ h

/-- Import leaves the tree untouched whenever it returns an error. -/
theorem import_error_no_mutation (ct : ChangeTree) (hash number : Nat)
    (change : PendingChange) (f : IsDescendentOf) (e : ChangeTreeError)
    (h : (ChangeTree.Import ct hash number change f).2 = .error e) :
    (ChangeTree.Import ct hash number change f).1 = ct := by
  unfold ChangeTree.Import at h ⊢
  cases hic : importChildren ct.treeRoots hash number change f with
  | error e' =>
    rfl
  | ok o =>
    rw [hic] at h
    cases o <;> simp at h

/-- FinalizeWithDescendentIf leaves the tree untouched whenever it returns
an error other than an oracle failure (the structural errors are raised
before any mutation; only the oracle can fail inside the retention loop). -/
theorem finalize_error_no_mutation (ct : ChangeTree) (hash number : Nat)
    (f : IsDescendentOf) (predicate : PendingChange → Bool) (e : ChangeTreeError)
    (h : (ChangeTree.FinalizeWithDescendentIf ct hash number f predicate).2 = .error e)
    (he : e ≠ .oracleFailure) :
    (ChangeTree.FinalizeWithDescendentIf ct hash number f predicate).1 = ct := by
  unfold ChangeTree.FinalizeWithDescendentIf at h ⊢
  by_cases hb : (match ct.bestFinalizedNumber with
      | some best => (number ≤ best : Bool)
      | none => false) = true
  · rw [if_pos hb]
  · rw [if_neg hb] at h ⊢
    cases hfp : finalizeFindPosition ct.treeRoots 0 hash number f predicate with
    | error e' =>
      rfl
    | ok position =>
      rw [hfp] at h
      exfalso
      cases position with
      | some idx =>
        dsimp only at h
        cases hrl : finalizeRetainLoop (ChangeTree.swapRemove ct.treeRoots idx).1.children
            hash number f []
            (some (ChangeTree.swapRemove ct.treeRoots idx).1.change.canonHeight) false with
        | mk tree2 res =>
          rw [hrl] at h
          cases res with
          | error e2 =>
            have := finalizeRetainLoop_error_oracle _ _ _ _ _ _ _ _ _ hrl
            simp only [Except.error.injEq] at h
            exact he (h ▸ this ▸ rfl)
          | ok dc =>
            by_cases hdc : dc = true
            · subst hdc
              simp at h
            · have hdc' : dc = false := by simpa using hdc
              subst hdc'
              simp at h
      | none =>
        dsimp only at h
        cases hrl : finalizeRetainLoop ct.treeRoots hash number f []
            ct.bestFinalizedNumber false with
        | mk tree2 res =>
          rw [hrl] at h
          cases res with
          | error e2 =>
            have := finalizeRetainLoop_error_oracle _ _ _ _ _ _ _ _ _ hrl
            simp only [Except.error.injEq] at h
            exact he (h ▸ this ▸ rfl)
          | ok dc =>
            by_cases hdc : dc = true
            · subst hdc
              simp at h
            · have hdc' : dc = false := by simpa using hdc
              subst hdc'
              simp at h

open ChangeTree in
/-- C3: the claim states that after a successful finalization, every Import
at a number at most the best finalized number fails with Revert and leaves
the tree unchanged.  The source's Import performs no check against
bestFinalizedNumber at all (unlike the Finalize* functions), so such
an import succeeds.  Evaluation: finalizing the root (hash 1, height 2)
at number 5 succeeds, after which importing (hash 7, number 1), with
1 at most the recorded best finalized number, returns is_root = true with
no error and mutates the tree. -/
theorem claim_C3_import_ignores_best_finalized :
    (FinalizeWithDescendentIf ⟨[.node ⟨1, 2⟩ []], none⟩ 1 5
      (fun _ _ => some false) (fun _ => true)).1 = ⟨[], some 2⟩ ∧
    (FinalizeWithDescendentIf ⟨[.node ⟨1, 2⟩ []], none⟩ 1 5
      (fun _ _ => some false) (fun _ => true)).2 = .ok (.changed (some ⟨1, 2⟩)) ∧
    (Import (⟨[], some 2⟩ : ChangeTree) 7 1 ⟨7, 1⟩ (fun _ _ => some false)).2
      = .ok true ∧
    (Import (⟨[], some 2⟩ : ChangeTree) 7 1 ⟨7, 1⟩ (fun _ _ => some false)).1
      = ⟨[.node ⟨7, 1⟩ []], some 2⟩ := by
  refine ⟨rfl, rfl, ?_, ?_⟩ <;> simp [Import, importChildren]

open ChangeTree in
/-- C4: the claim states that a FinalizeWithDescendentIf returning without
error always leaves bestFinalizedNumber = number.  The source assigns
bestFinalizedNumber = number only inside the loop over the remaining roots,
so when the finalized root has no children and no other root remains the
loop body never runs and bestFinalizedNumber stays at the finalized node's
height.  Evaluation: finalizing the childless root (hash 1, height 2) at
number 5 succeeds with Changed, but bestFinalizedNumber ends at 2, not 5. -/
theorem claim_C4_best_finalized_number_not_set :
    (FinalizeWithDescendentIf ⟨[.node ⟨1, 2⟩ []], none⟩ 1 5
      (fun _ _ => some false) (fun _ => true)).2 = .ok (.changed (some ⟨1, 2⟩)) ∧
    (FinalizeWithDescendentIf ⟨[.node ⟨1, 2⟩ []], none⟩ 1 5
      (fun _ _ => some false) (fun _ => true)).1.bestFinalizedNumber = some 2 ∧
    some 2 ≠ some 5 := by
  exact ⟨rfl, rfl, by decide⟩

open ChangeTree in
/-- C8: whenever Import, FinalizesAnyWithDescendentIf or
FinalizeWithDescendentIf returns DuplicateHashes, Revert or
UnfinalisedAncestor, the tree is exactly as before the call. -/
theorem claim_C8_structural_errors_no_mutation :
    (∀ (ct : ChangeTree) (hash number : Nat) (change : PendingChange)
       (f : IsDescendentOf) (e : ChangeTreeError),
       (Import ct hash number change f).2 = .error e →
       (e = .duplicateHashes ∨ e = .revert ∨ e = .unfinalisedAncestor) →
       (Import ct hash number change f).1 = ct) ∧
    (∀ (ct : ChangeTree) (hash number : Nat) (f : IsDescendentOf)
       (predicate : PendingChange → Bool) (e : ChangeTreeError),
       (FinalizesAnyWithDescendentIf ct hash number f predicate).2 = .error e →
       (e = .duplicateHashes ∨ e = .revert ∨ e = .unfinalisedAncestor) →
       (FinalizesAnyWithDescendentIf ct hash number f predicate).1 = ct) ∧
    (∀ (ct : ChangeTree) (hash number : Nat) (f : IsDescendentOf)
       (predicate : PendingChange → Bool) (e : ChangeTreeError),
       (FinalizeWithDescendentIf ct hash number f predicate).2 = .error e →
       (e = .duplicateHashes ∨ e = .revert ∨ e = .unfinalisedAncestor) →
       (FinalizeWithDescendentIf ct hash number f predicate).1 = ct) := by
  refine ⟨?_, ?_, ?_⟩
  · intro ct hash number change f e h _
    exact import_error_no_mutation ct hash number change f e h
  · intro ct hash number f predicate e _ _
    rfl
  · intro ct hash number f predicate e h he
    refine finalize_error_no_mutation ct hash number f predicate e h ?_
    rcases he with rfl | rfl | rfl <;> simp

open ChangeTree in
/-- Witness for the C8 frame theorem: a duplicate-hash import, a reverted
query and a reverted finalization each leave a concrete tree unchanged. -/
theorem claim_C8_structural_errors_no_mutation_witness :
    (Import ⟨[.node ⟨5, 3⟩ []], none⟩ 5 7 ⟨5, 7⟩ (fun _ _ => some true)).1
      = ⟨[.node ⟨5, 3⟩ []], none⟩ ∧
    (FinalizesAnyWithDescendentIf ⟨[], some 5⟩ 9 3 (fun _ _ => some true)
      (fun _ => true)).1 = ⟨[], some 5⟩ ∧
    (FinalizeWithDescendentIf ⟨[], some 5⟩ 9 3 (fun _ _ => some true)
      (fun _ => true)).1 = ⟨[], some 5⟩ :=
  ⟨claim_C8_structural_errors_no_mutation.1 ⟨[.node ⟨5, 3⟩ []], none⟩ 5 7 ⟨5, 7⟩
     (fun _ _ => some true) .duplicateHashes
     (by simp [Import, importChildren, importNode]) (Or.inl rfl),
   claim_C8_structural_errors_no_mutation.2.1 ⟨[], some 5⟩ 9 3 (fun _ _ => some true)
     (fun _ => true) .revert rfl (Or.inr (Or.inl rfl)),
   claim_C8_structural_errors_no_mutation.2.2 ⟨[], some 5⟩ 9 3 (fun _ _ => some true)
     (fun _ => true) .revert rfl (Or.inr (Or.inl rfl))⟩

open ChangeTree in
/-- C10: FinalizesAnyWithDescendentIf is a pure query: the source performs
no assignment to the receiver on any path, so the tree component of the
embedded call is the input tree whatever the result. -/
theorem claim_C10_finalizesAny_pure (ct : ChangeTree) (hash number : Nat)
    (f : IsDescendentOf) (predicate : PendingChange → Bool) :
    (FinalizesAnyWithDescendentIf ct hash number f predicate).1 = ct :=
  rfl

/-!
## TrieState (lib/runtime/storage)

The TrieState methods are embedded from the source.  Two collaborators are
not part of the provided sources and are modelled from the spec: the
committed Merkle-Patricia trie (spec section 3: a finite key-value map,
embedded as a well-formed OrdMap) and the storageDiff change set (spec
section 4.3: upserts, a delete set and the sorted upsert keys; a put
removes the key from the deletes, a delete removes it from the upserts; a
snapshot is a copy; committing the outermost diff applies its upserts and
deletes to the state).  Child tries are omitted: the claims under
verification exercise only main-trie reads, writes and key traversal.
-/

/-- insertSortedKey from the source: sorted insert via binary search,
keeping the list unchanged when the key is already present.  The binary
search of the standard library is modelled by its contract on sorted
input. -/
def insertSortedKey (keys : List Nat) (key : Nat) : List Nat :=
  match keys with
  | [] => [key]
  | k :: rest =>
    if key < k then key :: k :: rest
    else if key = k then k :: rest
    else k :: insertSortedKey rest key

/-- removeSortedKey from the source: remove the key when found. -/
def removeSortedKey (keys : List Nat) (key : Nat) : List Nat :=
  match keys with
  | [] => []
  | k :: rest => if k = key then rest else k :: removeSortedKey rest key

/-- Modelled from the spec: a storage diff holds the upserted key-values,
the deleted keys and the sorted list of upserted keys (the child change
set, unused by the claims under verification, is omitted). -/
structure StorageDiff where
  upserts : OrdMap Nat
  deletes : List Nat
  sortedKeys : List Nat
deriving DecidableEq, Repr

/-- Modelled from the spec: a fresh, empty change set. -/
def newStorageDiff : StorageDiff := ⟨[], [], []⟩

namespace StorageDiff

/-- Modelled from the spec: a snapshot is a copy of the diff (the embedding
uses value semantics, so it is the diff itself). -/
def snapshot (d : StorageDiff) : StorageDiff := d

/-- Modelled from the spec: record an upsert; the key leaves the delete set
and joins the sorted upsert keys. -/
def upsert (d : StorageDiff) (key value : Nat) : StorageDiff :=
  ⟨OrdMap.set d.upserts key value,
   d.deletes.filter (fun k => k ≠ key),
   insertSortedKey d.sortedKeys key⟩

/-- Modelled from the spec: record a deletion; the key leaves the upserts
and their sorted keys and joins the delete set. -/
def delete (d : StorageDiff) (key : Nat) : StorageDiff :=
  ⟨OrdMap.del d.upserts key,
   if key ∈ d.deletes then d.deletes else key :: d.deletes,
   removeSortedKey d.sortedKeys key⟩

/-- Modelled from the spec: a lookup returns the pending value and whether
the key is deleted in this diff. -/
def get (d : StorageDiff) (key : Nat) : Option Nat × Bool :=
  if key ∈ d.deletes then (none, true)
  else (OrdMap.get d.upserts key, false)

/-- Modelled from the spec: applying the diff to the committed state writes
every upsert and removes every deleted key. -/
def applyToTrie (d : StorageDiff) (state : OrdMap Nat) : OrdMap Nat :=
  d.deletes.foldl OrdMap.del
    (d.upserts.foldl (fun st e => OrdMap.set st e.1 e.2) state)

end StorageDiff

/-- The transactional state: the committed trie (modelled as a key-value
map), the transaction stack (head of the list is the innermost diff, the
Back of the source's list) and the sorted-keys mirror of the state. -/
structure TrieState where
  state : OrdMap Nat
  transactions : List StorageDiff
  sortedKeys : List Nat
deriving DecidableEq, Repr

namespace TrieState

/-- NewTrieState over an initial committed trie; the sorted-keys mirror
starts empty as in the source. -/
def NewTrieState (initialState : OrdMap Nat) : TrieState := ⟨initialState, [], []⟩

/-- The innermost open diff, when a transaction is open. -/
def getCurrentTransaction (t : TrieState) : Option StorageDiff :=
  t.transactions.head?

/-- StartTransaction pushes a snapshot of the current innermost diff, or of
a fresh empty diff when no transaction is open. -/
def StartTransaction (t : TrieState) : TrieState :=
  let nextChangeSet :=
    match t.getCurrentTransaction with
    | none => newStorageDiff
    | some d => d
  { t with transactions := nextChangeSet.snapshot :: t.transactions }

/-- RollbackTransaction discards the innermost diff; none models the
source's panic on an empty stack. -/
def RollbackTransaction (t : TrieState) : Option TrieState :=
  match t.transactions with
  | [] => none
  | _ :: rest => some { t with transactions := rest }

/-- CommitTransaction: with more than one open transaction the innermost
diff replaces its parent (the source assigns the removed Back to the
previous element); the last diff is applied to the state and the
sorted-keys mirror is updated from its upsert keys and deletes. -/
def CommitTransaction (t : TrieState) : Option TrieState :=
  match t.transactions with
  | [] => none
  | [tx] =>
    some { state := tx.applyToTrie t.state,
           transactions := [],
           sortedKeys := tx.deletes.foldl removeSortedKey
             (tx.sortedKeys.foldl insertSortedKey t.sortedKeys) }
  | tx :: _ :: rest => some { t with transactions := tx :: rest }

/-- Put writes into the innermost diff when a transaction is open and
directly into the state (updating the mirror) otherwise. -/
def Put (t : TrieState) (key value : Nat) : TrieState :=
  match t.transactions with
  | tx :: rest => { t with transactions := tx.upsert key value :: rest }
  | [] =>
    { t with state := OrdMap.set t.state key value,
             sortedKeys := insertSortedKey t.sortedKeys key }

/-- Delete removes from the innermost diff when a transaction is open and
directly from the state (updating the mirror) otherwise. -/
def Delete (t : TrieState) (key : Nat) : TrieState :=
  match t.transactions with
  | tx :: rest => { t with transactions := tx.delete key :: rest }
  | [] =>
    { t with state := OrdMap.del t.state key,
             sortedKeys := removeSortedKey t.sortedKeys key }

/-- Get consults the innermost diff first: a deleted key reads as absent, an
upserted key returns its pending value, anything else falls through to the
committed state. -/
def Get (t : TrieState) (key : Nat) : Option Nat :=
  match t.getCurrentTransaction with
  | some currentTx =>
    let vd := currentTx.get key
    if vd.1.isSome ∨ vd.2 then vd.1 else OrdMap.get t.state key
  | none => OrdMap.get t.state key

/-- Modelled from the spec: the committed trie's NextKey is the smallest
stored key strictly greater than the argument. -/
def stateNextKey (state : OrdMap Nat) (key : Nat) : Option Nat :=
  match state.find? (fun e => key < e.1) with
  | some e => some e.1
  | none => none

/-- The binary search of the standard library, modelled by its contract on
sorted input: the position of the first element not below the target, and
whether the element there equals the target (the first occurrence when
duplicates are present). -/
def binarySearch (keys : List Nat) (key : Nat) : Nat × Bool :=
  let pos := keys.countP (fun x => x < key)
  (pos, keys.get? pos == some key)

/-- NextKey from the source: under an open transaction, merge the committed
sorted keys (with the innermost deletes removed) with the innermost diff's
sorted upsert keys, sort, binary-search the argument and step one position
past it when found. -/
def NextKey (t : TrieState) (key : Nat) : Option Nat :=
  match t.getCurrentTransaction with
  | some currentTx =>
    let mainStateSortedKeys := t.sortedKeys.filter (fun s => ¬ s ∈ currentTx.deletes)
    let allSortedKeys :=
      List.insertionSort (· ≤ ·) (mainStateSortedKeys ++ currentTx.sortedKeys)
    let pf := binarySearch allSortedKeys key
    let pos := if pf.2 then pf.1 + 1 else pf.1
    match allSortedKeys.get? pos with
    | some k => some k
    | none => none
  | none => stateNextKey t.state key

end TrieState

/-- A Put or Delete write against the trie state. -/
inductive WriteOp where
  | put (key value : Nat)
  | del (key : Nat)
deriving DecidableEq, Repr

/-- Apply one write through the TrieState interface. -/
def applyWrite (t : TrieState) (w : WriteOp) : TrieState :=
  match w with
  | .put k v => t.Put k v
  | .del k => t.Delete k

/-- Apply a sequence of writes through the TrieState interface. -/
def applyWrites (t : TrieState) (ws : List WriteOp) : TrieState :=
  ws.foldl applyWrite t

/-- The same write recorded in a diff (characterizes writes under an open
transaction). -/
def diffWrite (d : StorageDiff) (w : WriteOp) : StorageDiff :=
  match w with
  | .put k v => d.upsert k v
  | .del k => d.delete k

/-- A sequence of writes recorded in a diff. -/
def foldDiff (ws : List WriteOp) (d : StorageDiff) : StorageDiff :=
  ws.foldl diffWrite d

/-- The same write applied directly to a committed map. -/
def stWrite (m : OrdMap Nat) (w : WriteOp) : OrdMap Nat :=
  match w with
  | .put k v => OrdMap.set m k v
  | .del k => OrdMap.del m k

/-- A sequence of writes applied directly to a committed map. -/
def stFold (ws : List WriteOp) (m : OrdMap Nat) : OrdMap Nat :=
  ws.foldl stWrite m

/-- The same write applied to the sorted-keys mirror. -/
def skWrite (sk : List Nat) (w : WriteOp) : List Nat :=
  match w with
  | .put k _ => insertSortedKey sk k
  | .del k => removeSortedKey sk k

/-- A sequence of writes applied to the sorted-keys mirror. -/
def skFold (ws : List WriteOp) (sk : List Nat) : List Nat :=
  ws.foldl skWrite sk

theorem OrdMap.get_none_of_lt {α : Type} {m : OrdMap α} {k : Nat}
    (h : ∀ e ∈ m, k < e.1) : OrdMap.get m k = none := by
  induction m with
  | nil => rfl
  | cons e rest ih =>
    have h1 : e.1 ≠ k := by
      have := h e (List.mem_cons_self e rest)
      omega
    rw [OrdMap.get_cons, if_neg h1, ih (fun e' he' => h e' (List.mem_cons_of_mem e he'))]

theorem OrdMap.WF_foldl_set {ups : OrdMap Nat} :
    ∀ {m : OrdMap Nat}, OrdMap.WF m →
    OrdMap.WF (ups.foldl (fun st e => OrdMap.set st e.1 e.2) m) := by
  induction ups with
  | nil => intro m hm; exact hm
  | cons e rest ih =>
    intro m hm
    simp only [List.foldl_cons]
    exact ih (OrdMap.WF_set hm _ _)

theorem OrdMap.get_foldl_del :
    ∀ (l : List Nat) {m : OrdMap Nat} (key : Nat), OrdMap.WF m →
    OrdMap.get (l.foldl OrdMap.del m) key
      = if key ∈ l then none else OrdMap.get m key := by
  intro l
  induction l with
  | nil => intro m key _; simp
  | cons k l ih =>
    intro m key hm
    simp only [List.foldl_cons]
    by_cases hk : key = k
    · subst hk
      rw [ih _ (OrdMap.WF_del hm _)]
      by_cases hmem : key ∈ l
      · simp [hmem]
      · simp [hmem, OrdMap.get_del_self hm]
    · rw [ih _ (OrdMap.WF_del hm _), OrdMap.get_del_ne _ _ _ hk]
      by_cases hmem : key ∈ l
      · simp [hmem]
      · simp [hmem, hk]

theorem OrdMap.get_foldl_set :
    ∀ (ups : OrdMap Nat) {m : OrdMap Nat} (key : Nat), OrdMap.WF ups →
    OrdMap.get (ups.foldl (fun st e => OrdMap.set st e.1 e.2) m) key
      = match OrdMap.get ups key with
        | some v => some v
        | none => OrdMap.get m key := by
  intro ups
  induction ups with
  | nil => intro m key _; rfl
  | cons e rest ih =>
    intro m key hw
    simp only [List.foldl_cons]
    rw [ih _ (OrdMap.WF_cons_of_WF hw), OrdMap.get_cons]
    by_cases h1 : e.1 = key
    · subst h1
      rw [if_pos rfl]
      have hrest : OrdMap.get rest e.1 = none :=
        OrdMap.get_none_of_lt (OrdMap.WF_cons_lt hw)
      rw [hrest, OrdMap.get_set_self]
    · rw [if_neg h1]
      cases OrdMap.get rest key with
      | some v => rfl
      | none => rw [OrdMap.get_set_ne _ _ _ _ (Ne.symm h1)]

theorem StorageDiff.WF_applyToTrie {d : StorageDiff} {st : OrdMap Nat}
    (hw : OrdMap.WF st) : OrdMap.WF (d.applyToTrie st) := by
  unfold StorageDiff.applyToTrie
  have h1 : OrdMap.WF (d.upserts.foldl (fun st e => OrdMap.set st e.1 e.2) st) :=
    OrdMap.WF_foldl_set hw
  have : ∀ (l : List Nat) (m : OrdMap Nat), OrdMap.WF m → OrdMap.WF (l.foldl OrdMap.del m) := by
    intro l
    induction l with
    | nil => intro m hm; exact hm
    | cons k l ih =>
      intro m hm
      simp only [List.foldl_cons]
      exact ih _ (OrdMap.WF_del hm _)
  exact this _ _ h1

/-- The committed state after applying a diff, read back per key. -/
theorem StorageDiff.get_applyToTrie {d : StorageDiff} {st : OrdMap Nat} (key : Nat)
    (hwd : OrdMap.WF d.upserts) (hws : OrdMap.WF st) :
    OrdMap.get (d.applyToTrie st) key
      = if key ∈ d.deletes then none
        else match OrdMap.get d.upserts key with
          | some v => some v
          | none => OrdMap.get st key := by
  unfold StorageDiff.applyToTrie
  rw [OrdMap.get_foldl_del _ _ (OrdMap.WF_foldl_set hws),
    OrdMap.get_foldl_set _ _ hwd]

theorem StorageDiff.WF_upsert {d : StorageDiff} (hw : OrdMap.WF d.upserts)
    (key value : Nat) : OrdMap.WF (d.upsert key value).upserts :=
  OrdMap.WF_set hw _ _

theorem StorageDiff.WF_delete {d : StorageDiff} (hw : OrdMap.WF d.upserts)
    (key : Nat) : OrdMap.WF (d.delete key).upserts :=
  OrdMap.WF_del hw _

theorem WF_diffWrite {d : StorageDiff} (hw : OrdMap.WF d.upserts) (w : WriteOp) :
    OrdMap.WF (diffWrite d w).upserts := by
  cases w with
  | put k v => exact StorageDiff.WF_upsert hw k v
  | del k => exact StorageDiff.WF_delete hw k

/-- Recording an upsert in the diff and then applying equals applying and
then writing directly, pointwise on reads. -/
theorem StorageDiff.get_applyToTrie_upsert {d : StorageDiff} {st : OrdMap Nat}
    (k v j : Nat) (hwd : OrdMap.WF d.upserts) (hws : OrdMap.WF st) :
    OrdMap.get ((d.upsert k v).applyToTrie st) j
      = OrdMap.get (OrdMap.set (d.applyToTrie st) k v) j := by
  rw [StorageDiff.get_applyToTrie j (StorageDiff.WF_upsert hwd k v) hws]
  by_cases hj : j = k
  · subst hj
    have hnd : j ∉ (d.upsert j v).deletes := by
      simp [StorageDiff.upsert, List.mem_filter]
    rw [if_neg hnd]
    simp only [StorageDiff.upsert, OrdMap.get_set_self]
  · have hdel : j ∈ (d.upsert k v).deletes ↔ j ∈ d.deletes := by
      simp [StorageDiff.upsert, List.mem_filter, hj]
    rw [OrdMap.get_set_ne _ _ _ _ hj,
      StorageDiff.get_applyToTrie j hwd hws]
    by_cases hmem : j ∈ d.deletes
    · rw [if_pos (hdel.mpr hmem), if_pos hmem]
    · rw [if_neg (fun hc => hmem (hdel.mp hc)), if_neg hmem]
      simp only [StorageDiff.upsert]
      rw [OrdMap.get_set_ne _ _ _ _ hj]

/-- Recording a deletion in the diff and then applying equals applying and
then deleting directly, pointwise on reads. -/
theorem StorageDiff.get_applyToTrie_delete {d : StorageDiff} {st : OrdMap Nat}
    (k j : Nat) (hwd : OrdMap.WF d.upserts) (hws : OrdMap.WF st) :
    OrdMap.get ((d.delete k).applyToTrie st) j
      = OrdMap.get (OrdMap.del (d.applyToTrie st) k) j := by
  rw [StorageDiff.get_applyToTrie j (StorageDiff.WF_delete hwd k) hws]
  by_cases hj : j = k
  · subst hj
    have hd : j ∈ (d.delete j).deletes := by
      simp only [StorageDiff.delete]
      by_cases hmem : j ∈ d.deletes
      · simp [hmem]
      · simp [hmem]
    rw [if_pos hd, OrdMap.get_del_self (StorageDiff.WF_applyToTrie hws)]
  · have hdel : j ∈ (d.delete k).deletes ↔ j ∈ d.deletes := by
      simp only [StorageDiff.delete]
      by_cases hmem : k ∈ d.deletes
      · simp [hmem]
      · simp [hmem, List.mem_cons, hj]
    rw [OrdMap.get_del_ne _ _ _ hj, StorageDiff.get_applyToTrie j hwd hws]
    by_cases hmem : j ∈ d.deletes
    · rw [if_pos (hdel.mpr hmem), if_pos hmem]
    · rw [if_neg (fun hc => hmem (hdel.mp hc)), if_neg hmem]
      simp only [StorageDiff.delete]
      rw [OrdMap.get_del_ne _ _ _ hj]

theorem WF_stWrite {m : OrdMap Nat} (hw : OrdMap.WF m) (w : WriteOp) :
    OrdMap.WF (stWrite m w) := by
  cases w with
  | put k v => exact OrdMap.WF_set hw _ _
  | del k => exact OrdMap.WF_del hw _

/-- Direct writes preserve read-equivalence of well-formed maps. -/
theorem stFold_congr (ws : List WriteOp) :
    ∀ (m1 m2 : OrdMap Nat), OrdMap.WF m1 → OrdMap.WF m2 →
    (∀ j, OrdMap.get m1 j = OrdMap.get m2 j) →
    ∀ j, OrdMap.get (stFold ws m1) j = OrdMap.get (stFold ws m2) j := by
  induction ws with
  | nil => intro m1 m2 _ _ h j; exact h j
  | cons w ws ih =>
    intro m1 m2 hw1 hw2 h j
    simp only [stFold, List.foldl_cons]
    refine ih (stWrite m1 w) (stWrite m2 w) (WF_stWrite hw1 w) (WF_stWrite hw2 w) ?_ j
    intro i
    cases w with
    | put k v =>
      by_cases hik : i = k
      · subst hik
        simp only [stWrite]
        rw [OrdMap.get_set_self, OrdMap.get_set_self]
      · simp only [stWrite]
        rw [OrdMap.get_set_ne _ _ _ _ hik, OrdMap.get_set_ne _ _ _ _ hik]
        exact h i
    | del k =>
      by_cases hik : i = k
      · subst hik
        simp only [stWrite]
        rw [OrdMap.get_del_self hw1, OrdMap.get_del_self hw2]
      · simp only [stWrite]
        rw [OrdMap.get_del_ne _ _ _ hik, OrdMap.get_del_ne _ _ _ hik]
        exact h i

/-- The heart of the commit-equivalence: writes recorded in a diff and then
applied to the state read the same as writes applied directly. -/
theorem get_foldDiff_applyToTrie (ws : List WriteOp) :
    ∀ (d : StorageDiff) (st : OrdMap Nat), OrdMap.WF d.upserts → OrdMap.WF st →
    ∀ key, OrdMap.get ((foldDiff ws d).applyToTrie st) key
      = OrdMap.get (stFold ws (d.applyToTrie st)) key := by
  induction ws with
  | nil => intro d st _ _ key; rfl
  | cons w ws ih =>
    intro d st hwd hws key
    have h1 : OrdMap.get ((foldDiff ws (diffWrite d w)).applyToTrie st) key
        = OrdMap.get (stFold ws ((diffWrite d w).applyToTrie st)) key :=
      ih (diffWrite d w) st (WF_diffWrite hwd w) hws key
    simp only [foldDiff, stFold, List.foldl_cons] at h1 ⊢
    rw [h1]
    refine stFold_congr ws _ _
      (StorageDiff.WF_applyToTrie hws) (WF_stWrite (StorageDiff.WF_applyToTrie hws) w)
      ?_ key
    intro j
    cases w with
    | put k v => exact StorageDiff.get_applyToTrie_upsert k v j hwd hws
    | del k => exact StorageDiff.get_applyToTrie_delete k j hwd hws

theorem TrieState.StartTransaction_nil {t : TrieState} (h : t.transactions = []) :
    TrieState.StartTransaction t = ⟨t.state, [newStorageDiff], t.sortedKeys⟩ := by
  unfold TrieState.StartTransaction TrieState.getCurrentTransaction
  rw [h]
  rfl

theorem TrieState.StartTransaction_cons {t : TrieState} {d : StorageDiff}
    {rest : List StorageDiff} (h : t.transactions = d :: rest) :
    TrieState.StartTransaction t = ⟨t.state, d :: d :: rest, t.sortedKeys⟩ := by
  unfold TrieState.StartTransaction TrieState.getCurrentTransaction
  rw [h]
  rfl

/-- With an open transaction, a sequence of writes only rewrites the
innermost diff. -/
theorem applyWrites_cons_tx (ws : List WriteOp) :
    ∀ (st : OrdMap Nat) (d : StorageDiff) (rest : List StorageDiff) (sk : List Nat),
    applyWrites ⟨st, d :: rest, sk⟩ ws = ⟨st, foldDiff ws d :: rest, sk⟩ := by
  induction ws with
  | nil => intro st d rest sk; rfl
  | cons w ws ih =>
    intro st d rest sk
    have hstep : applyWrite ⟨st, d :: rest, sk⟩ w = ⟨st, diffWrite d w :: rest, sk⟩ := by
      cases w <;> rfl
    have h1 : applyWrites ⟨st, d :: rest, sk⟩ (w :: ws)
        = applyWrites ⟨st, diffWrite d w :: rest, sk⟩ ws := by
      simp only [applyWrites, List.foldl_cons, hstep]
    rw [h1, ih st (diffWrite d w) rest sk]
    rfl

/-- With no open transaction, a sequence of writes acts directly on the
state and the sorted-keys mirror. -/
theorem applyWrites_nil_tx (ws : List WriteOp) :
    ∀ (st : OrdMap Nat) (sk : List Nat),
    applyWrites ⟨st, [], sk⟩ ws = ⟨stFold ws st, [], skFold ws sk⟩ := by
  induction ws with
  | nil => intro st sk; rfl
  | cons w ws ih =>
    intro st sk
    have hstep : applyWrite ⟨st, [], sk⟩ w = ⟨stWrite st w, [], skWrite sk w⟩ := by
      cases w <;> rfl
    have h1 : applyWrites ⟨st, [], sk⟩ (w :: ws)
        = applyWrites ⟨stWrite st w, [], skWrite sk w⟩ ws := by
      simp only [applyWrites, List.foldl_cons, hstep]
    rw [h1, ih (stWrite st w) (skWrite sk w)]
    rfl

/-- Rollback after a transaction of writes restores the state structurally. -/
theorem rollback_restores (t : TrieState) (ws : List WriteOp) :
    TrieState.RollbackTransaction (applyWrites (TrieState.StartTransaction t) ws)
      = some t := by
  cases t with
  | mk st txs sk =>
    cases txs with
    | nil =>
      rw [TrieState.StartTransaction_nil rfl]
      rw [applyWrites_cons_tx ws st newStorageDiff [] sk]
      rfl
    | cons d rest =>
      rw [TrieState.StartTransaction_cons rfl]
      rw [applyWrites_cons_tx ws st d (d :: rest) sk]
      rfl

/-- Commit after a transaction of writes, with an outer transaction open,
equals the same writes performed on the outer transaction. -/
theorem commit_merge (st : OrdMap Nat) (sk : List Nat) (d : StorageDiff)
    (rest : List StorageDiff) (ws : List WriteOp) :
    TrieState.CommitTransaction
        (applyWrites (TrieState.StartTransaction ⟨st, d :: rest, sk⟩) ws)
      = some (applyWrites ⟨st, d :: rest, sk⟩ ws) := by
  rw [TrieState.StartTransaction_cons rfl]
  rw [applyWrites_cons_tx ws st d (d :: rest) sk]
  rw [applyWrites_cons_tx ws st d rest sk]
  rfl

/-- Commit after a transaction of writes, with no outer transaction, reads
per key the same as the writes applied directly to the state. -/
theorem commit_apply_get (st : OrdMap Nat) (sk : List Nat) (ws : List WriteOp)
    (key : Nat) (hw : OrdMap.WF st) :
    Option.map (fun u => TrieState.Get u key)
        (TrieState.CommitTransaction
          (applyWrites (TrieState.StartTransaction ⟨st, [], sk⟩) ws))
      = some (TrieState.Get (applyWrites ⟨st, [], sk⟩ ws) key) := by
  rw [TrieState.StartTransaction_nil rfl]
  rw [applyWrites_cons_tx ws st newStorageDiff [] sk]
  rw [applyWrites_nil_tx ws st sk]
  show some (OrdMap.get ((foldDiff ws newStorageDiff).applyToTrie st) key)
    = some (OrdMap.get (stFold ws st) key)
  rw [get_foldDiff_applyToTrie ws newStorageDiff st OrdMap.WF_nil hw key]
  rfl

/-- C1: for every trie state, a transaction of Put/Delete writes followed by
RollbackTransaction restores every Get to its value before StartTransaction,
and StartTransaction plus the writes plus CommitTransaction reads per key
the same as the writes performed with no extra transaction opened (on a
well-formed committed map when the commit reaches the trie). -/
theorem claim_C1_trie_transaction_semantics :
    (∀ (t : TrieState) (ws : List WriteOp) (key : Nat),
       Option.map (fun u => TrieState.Get u key)
         (TrieState.RollbackTransaction (applyWrites (TrieState.StartTransaction t) ws))
       = some (TrieState.Get t key)) ∧
    (∀ (t : TrieState) (ws : List WriteOp) (key : Nat), OrdMap.WF t.state →
       Option.map (fun u => TrieState.Get u key)
         (TrieState.CommitTransaction (applyWrites (TrieState.StartTransaction t) ws))
       = some (TrieState.Get (applyWrites t ws) key)) := by
  constructor
  · intro t ws key
    rw [rollback_restores t ws]
    rfl
  · intro t ws key hw
    cases t with
    | mk st txs sk =>
      cases txs with
      | nil => exact commit_apply_get st sk ws key hw
      | cons d rest =>
        rw [commit_merge st sk d rest ws]
        rfl

/-- Witness for the transaction-semantics theorem at a concrete state and
write sequence. -/
theorem claim_C1_trie_transaction_semantics_witness :
    Option.map (fun u => TrieState.Get u 1)
      (TrieState.RollbackTransaction (applyWrites
        (TrieState.StartTransaction ⟨[(1, 10)], [], [1]⟩) [.put 2 20, .del 1]))
      = some (TrieState.Get ⟨[(1, 10)], [], [1]⟩ 1) ∧
    Option.map (fun u => TrieState.Get u 2)
      (TrieState.CommitTransaction (applyWrites
        (TrieState.StartTransaction ⟨[(1, 10)], [], [1]⟩) [.put 2 20, .del 1]))
      = some (TrieState.Get (applyWrites ⟨[(1, 10)], [], [1]⟩ [.put 2 20, .del 1]) 2) :=
  ⟨claim_C1_trie_transaction_semantics.1 ⟨[(1, 10)], [], [1]⟩ [.put 2 20, .del 1] 1,
   claim_C1_trie_transaction_semantics.2 ⟨[(1, 10)], [], [1]⟩ [.put 2 20, .del 1] 2
     (by decide)⟩

/-- C5: the claim states that NextKey under an open transaction returns the
minimum merged key strictly greater than the argument, never the argument
itself.  When the key is present both in the committed sorted keys and in
the innermost diff's upsert keys, the merged list contains it twice; the
code binary-searches the first occurrence and steps one position, landing
on the duplicate, so NextKey(k) returns k.  Evaluation: committed state
{5 -> 99}, StartTransaction, Put(5, 100): NextKey(5) = 5, although the
merged view holds no key greater than 5 (without the transaction the same
query returns nil). -/
theorem claim_C5_nextKey_code_bug_eval :
    TrieState.Get (TrieState.Put (TrieState.StartTransaction
      (TrieState.Put (TrieState.NewTrieState []) 5 99)) 5 100) 5 = some 100 ∧
    TrieState.NextKey (TrieState.Put (TrieState.StartTransaction
      (TrieState.Put (TrieState.NewTrieState []) 5 99)) 5 100) 5 = some 5 ∧
    TrieState.NextKey (TrieState.Put (TrieState.NewTrieState []) 5 99) 5 = none :=
  ⟨rfl, rfl, rfl⟩

open LeafSet in
/-- C2: the claim states that FinalizeHeight(n) removes exactly the entries
with number at most n-1, so that afterwards no leaf below n remains and
leaves at n or above are untouched.  The code iterates with
storage.Ascend(n-1, cb) where cb returns false, so it removes only the
single first entry whose number is at least n-1, contradicting the
function's own documentation.  Evaluation at failing inputs: on the set
with levels 0 and 1, FinalizeHeight 2 removes only the entry at 1 and the
leaf at number 0 survives; on a set whose only level is 2, FinalizeHeight 2
removes the leaf at the finalized height. -/
theorem claim_C2_finalizeHeight_code_bug_eval :
    (FinalizeHeight ⟨[(0, [10]), (1, [11])]⟩ 2).1 = ⟨[(0, [10])]⟩ ∧
    (FinalizeHeight ⟨[(0, [10]), (1, [11])]⟩ 2).2 = ⟨[(1, [11])]⟩ ∧
    Contains (FinalizeHeight ⟨[(0, [10]), (1, [11])]⟩ 2).1 0 10 = true ∧
    (FinalizeHeight ⟨[(2, [12])]⟩ 2).1 = ⟨[]⟩ := by
  decide

open LeafSet in
/-- C7: the claim states that a removing Remove always returns an outcome.
The code, when the leaf is present, the parent hash is supplied and the
number is zero, removes the leaf and then returns nil: a mutation with no
outcome.  Evaluation at the failing input. -/
theorem claim_C7_remove_code_bug_eval :
    Contains ⟨[(0, [7])]⟩ 0 7 = true ∧
    (Remove ⟨[(0, [7])]⟩ 7 0 (some 3)).2 = none ∧
    (Remove ⟨[(0, [7])]⟩ 7 0 (some 3)).1 = ⟨[]⟩ := by
  decide

open LeafSet in
/-- C6 counterexample: undo operations are not exact inverses for every
leaf set.  Importing a block that is already a leaf appends a duplicate,
and UndoImport then removes both copies, so the block that was a leaf
before the Import is no longer one after the undo. -/
theorem claim_C6_counterexample :
    Contains ⟨[(1, [7])]⟩ 1 7 = true ∧
    Contains (UndoImport (Import ⟨[(1, [7])]⟩ 7 1 0).1
      (Import ⟨[(1, [7])]⟩ 7 1 0).2) 1 7 = false := by
  decide

open LeafSet in
/-- C6 (amended): on a well-formed leaf set, UndoImport after an Import of
a block that is not already a leaf restores the multiset of hashes at every
number; UndoRemove after a Remove that returned an outcome restores them
provided the supplied parent was not already a leaf and the removed level
was duplicate-free; UndoFinalization after FinalizeHeight restores the leaf
set exactly. -/
theorem claim_C6_leafset_undo_roundtrip :
    (∀ (s : LeafSet) (hash number parentHash : Nat),
       OrdMap.WF s.storage → Contains s number hash = false →
       (level s (number - 1)).Nodup →
       MSEq (UndoImport (Import s hash number parentHash).1
         (Import s hash number parentHash).2) s) ∧
    (∀ (s : LeafSet) (hash number : Nat) (parentHash : Option Nat) (o : RemoveOutcome),
       OrdMap.WF s.storage → (level s number).Nodup →
       (∀ pp, parentHash = some pp → Contains s (number - 1) pp = false) →
       (Remove s hash number parentHash).2 = some o →
       MSEq (UndoRemove (Remove s hash number parentHash).1 o) s) ∧
    (∀ (s : LeafSet) (number : Nat), OrdMap.WF s.storage →
       UndoFinalization (FinalizeHeight s number).1 (FinalizeHeight s number).2 = s) :=
  ⟨import_undo_restores, remove_undo_restores, finalize_undo_restores⟩

open LeafSet in
/-- Witness for the amended C6 round-trip theorem at concrete inputs. -/
theorem claim_C6_leafset_undo_roundtrip_witness :
    MSEq (UndoImport (Import ⟨[(1, [5])]⟩ 8 2 5).1
      (Import ⟨[(1, [5])]⟩ 8 2 5).2) ⟨[(1, [5])]⟩ ∧
    MSEq (UndoRemove (Remove ⟨[(2, [9])]⟩ 9 2 (some 4)).1
      ⟨some 4, 9, 2⟩) ⟨[(2, [9])]⟩ ∧
    UndoFinalization (FinalizeHeight ⟨[(3, [6])]⟩ 2).1
      (FinalizeHeight ⟨[(3, [6])]⟩ 2).2 = ⟨[(3, [6])]⟩ :=
  ⟨claim_C6_leafset_undo_roundtrip.1 ⟨[(1, [5])]⟩ 8 2 5
     (by decide) (by decide) (by decide),
   claim_C6_leafset_undo_roundtrip.2.1 ⟨[(2, [9])]⟩ 9 2 (some 4) ⟨some 4, 9, 2⟩
     (by decide) (by decide) (by intro pp hpp; cases hpp; decide) (by decide),
   claim_C6_leafset_undo_roundtrip.2.2 ⟨[(3, [6])]⟩ 2 (by decide)⟩

open LeafSet in
/-- C9 counterexample: importing a block that is already a leaf appends a
duplicate entry at the same number and inflates Count. -/
theorem claim_C9_counterexample :
    (Import (Import NewLeafSet 7 1 0).1 7 1 0).1 = ⟨[(1, [7, 7])]⟩ ∧
    Count (Import (Import NewLeafSet 7 1 0).1 7 1 0).1 = 2 ∧
    ¬ (level (Import (Import NewLeafSet 7 1 0).1 7 1 0).1 1).Nodup := by
  decide

end Gossamer
